import Mathlib

/-!
Verification of the deep-merge engine of `@se-oss/deep-merge`
(`src/index.ts`, function `deepMerge` with its inner `internalDeepMerge`).

The engine works on JavaScript value graphs with reference identity and
possible cycles, so we embed it over an explicit heap: a `Val` is either a
scalar (`prim`) or a reference (`ref`) into a list of `Node`s.  A `Node` is a
sequence (JS array), a plain map (JS plain object, fields in insertion
order with unique keys) or an opaque object (Date, RegExp, class instance —
anything `isPlainObject` rejects and `Array.isArray` rejects).  The two
`WeakMap` side tables of the source (`cloneMap`, `pairMap`) become explicit
association lists in the threaded state `St`, and the mutation of the
partially built output objects becomes `setNode` on the growing heap.
Recursion is fuel-bounded; the totality theorem shows the fuel computed by
the top-level wrapper always suffices.
-/

set_option maxHeartbeats 1000000

namespace DeepMerge

/-- Scalar (non-object) JavaScript values: numbers (modelled as integers),
strings, booleans, `null` and `undefined`. -/
inductive SVal where
  | num (n : Int)
  | str (s : String)
  | bool (b : Bool)
  | null
  | undefined
deriving DecidableEq

/-- A JavaScript value: a scalar, or a reference to a heap node.
Reference equality of objects is equality of heap addresses. -/
inductive Val where
  | prim (p : SVal)
  | ref (a : Nat)
deriving DecidableEq

/-- A heap node: an array, a plain object (association list of fields in
insertion order, keys unique), or an opaque object (Date, RegExp, class
instance, ... — not decomposable by the merge). -/
inductive Node where
  | arr (elems : List Val)
  | obj (fields : List (String × Val))
  | opaq (tag : Nat)
deriving DecidableEq

/-- The state threaded through one top-level merge call: the heap (input
nodes first, output nodes appended behind them), the clone table
(`cloneMap`: source address ↦ clone address) and the pair table
(`pairMap`: (target address, source address) ↦ output address). -/
structure St where
  heap : List Node
  clones : List (Nat × Nat)
  pairs : List (Nat × Nat × Nat)
deriving DecidableEq

/-- Contract of `isObject` from `@se-oss/object` (an external dependency):
`true` exactly on structured values (arrays, plain objects, opaque
objects), `false` on scalars and `undefined`. -/
def isObject : Val → Bool
  | .ref _ => true
  | .prim _ => false

/-- Dereference a heap address. -/
def getNode (s : St) (a : Nat) : Option Node :=
  s.heap.get? a

/-- Overwrite the node at an address (models mutation of an output node). -/
def setNode (s : St) (a : Nat) (n : Node) : St :=
  ⟨s.heap.set a n, s.clones, s.pairs⟩

/-- Lookup in the clone table (`cloneMap.get`). -/
def findClone : List (Nat × Nat) → Nat → Option Nat
  | [], _ => none
  | (b, o) :: rest, a => if b = a then some o else findClone rest a

/-- Lookup in the pair table (`getPair`). -/
def findPair : List (Nat × Nat × Nat) → Nat → Nat → Option Nat
  | [], _, _ => none
  | (x, y, o) :: rest, a, b => if x = a ∧ y = b then some o else findPair rest a b

/-- JavaScript property write `obj[k] = v`: overwrite in place if the key
exists (keeping its slot), append otherwise. -/
def objSet : List (String × Val) → String → Val → List (String × Val)
  | [], k, v => [(k, v)]
  | (k', v') :: rest, k, v =>
    if k' = k then (k, v) :: rest else (k', v') :: objSet rest k v

/-- JavaScript property read `obj[k]` (for own keys). -/
def objFind : List (String × Val) → String → Option Val
  | [], _ => none
  | (k', v') :: rest, k => if k' = k then some v' else objFind rest k

/-- `Object.keys`. -/
def keysOf (fs : List (String × Val)) : List String :=
  fs.map Prod.fst

/-- Self-reference fix-up of `internalDeepMerge` (lines 141–144): every
copied field whose value is the target object itself is redirected to the
output object. -/
def fixSelf (a o : Nat) (fs : List (String × Val)) : List (String × Val) :=
  fs.map (fun kv => if kv.2 = Val.ref a then (kv.1, Val.ref o) else kv)

/-- First argument passed to the recursive call for a source key `k` in the
plain-object merge (lines 149–153): the target's value when the key is own
on the target and both sides are structured, `undefined` otherwise. -/
def mergeArg (fs1 : List (String × Val)) (k : String) (bv : Val) : Val :=
  match objFind fs1 k with
  | some av => if isObject av && isObject bv then av else .prim .undefined
  | none => .prim .undefined

/-- Whether a node is structured-but-mergeable bookkeeping-wise: arrays and
plain objects are registered in the side tables, opaque nodes never are. -/
def structuredN : Node → Bool
  | .arr _ => true
  | .obj _ => true
  | .opaq _ => false

/-- Shape of the merge worker threaded through the element/key loops. -/
abbrev MergeF := St → Val → Val → Option (St × Val)

/-- The element loops of the array branches (lines 66–71, 96–98, 101–111):
clone each element with `f s undefined e` and push it onto the output array
at address `o`. -/
def pushElems (f : MergeF) (o : Nat) : St → List Val → Option St
  | s, [] => some s
  | s, e :: es =>
    match f s (.prim .undefined) e with
    | none => none
    | some (s', v) =>
      match getNode s' o with
      | some (.arr cur) => pushElems f o (setNode s' o (.arr (cur ++ [v]))) es
      | _ => none

/-- The key loops of the object branches (lines 74–82, 115–124, 146–154):
for each source entry `(k, y)`, compute `g s k y` and write the result into
field `k` of the output object at address `o`. -/
def setEntries (g : St → String → Val → Option (St × Val)) (o : Nat) :
    St → List (String × Val) → Option St
  | s, [] => some s
  | s, (k, y) :: rest =>
    match g s k y with
    | none => none
    | some (s', v) =>
      match getNode s' o with
      | some (.obj cur) => setEntries g o (setNode s' o (.obj (objSet cur k v))) rest
      | _ => none

/-- Lines 66–71: clone a source array `b` with elements `es` — allocate an
empty output array, register it in the clone table before recursing, then
push clones of the elements. -/
def cloneSeq (f : MergeF) (s : St) (b : Nat) (es : List Val) : Option (St × Val) :=
  let o := s.heap.length
  let s2 : St := ⟨s.heap ++ [Node.arr []], (b, o) :: s.clones, s.pairs⟩
  match pushElems f o s2 es with
  | none => none
  | some s3 => some (s3, .ref o)

/-- Lines 74–82: clone a source plain object `b` with fields `fs` —
allocate, register in the clone table, then clone each field. -/
def cloneMapNode (f : MergeF) (s : St) (b : Nat) (fs : List (String × Val)) :
    Option (St × Val) :=
  let o := s.heap.length
  let s2 : St := ⟨s.heap ++ [Node.obj []], (b, o) :: s.clones, s.pairs⟩
  match setEntries (fun t _ y => f t (.prim .undefined) y) o s2 fs with
  | none => none
  | some s3 => some (s3, .ref o)

/-- Lines 93–99: source is an array, target is an object that is not an
array — replace: allocate, register the pair, clone the source elements. -/
def pairCloneSeq (f : MergeF) (s : St) (a b : Nat) (ys : List Val) : Option (St × Val) :=
  let o := s.heap.length
  let s2 : St := ⟨s.heap ++ [Node.arr []], s.clones, (a, b, o) :: s.pairs⟩
  match pushElems f o s2 ys with
  | none => none
  | some s3 => some (s3, .ref o)

/-- Lines 101–112: both sides arrays — allocate, register the pair, then
push clones of the source elements (`mergeArrays = false`) or of the target
elements followed by the source elements (`mergeArrays = true`). -/
def mergeSeqs (f : MergeF) (ma : Bool) (s : St) (a b : Nat) (xs ys : List Val) :
    Option (St × Val) :=
  let o := s.heap.length
  let s2 : St := ⟨s.heap ++ [Node.arr []], s.clones, (a, b, o) :: s.pairs⟩
  match pushElems f o s2 (if ma then xs ++ ys else ys) with
  | none => none
  | some s3 => some (s3, .ref o)

/-- Lines 115–124: target is an array, source is a plain object — the
source shape wins: allocate a fresh object, register the pair, clone every
source field. -/
def pairCloneMap (f : MergeF) (s : St) (a b : Nat) (fs : List (String × Val)) :
    Option (St × Val) :=
  let o := s.heap.length
  let s2 : St := ⟨s.heap ++ [Node.obj []], s.clones, (a, b, o) :: s.pairs⟩
  match setEntries (fun t _ y => f t (.prim .undefined) y) o s2 fs with
  | none => none
  | some s3 => some (s3, .ref o)

/-- Lines 130–156: the plain-object/plain-object merge. Allocate the output
holding a shallow copy of the target's fields, register the pair, apply the
self-reference fix-up, then process every source key with `mergeArg`
choosing between recursive merge and cloning. -/
def mergeMaps (f : MergeF) (s : St) (a b : Nat) (fs1 fs2 : List (String × Val)) :
    Option (St × Val) :=
  let o := s.heap.length
  let s1 : St := ⟨s.heap ++ [Node.obj fs1], s.clones, (a, b, o) :: s.pairs⟩
  let s3 := setNode s1 o (.obj (fixSelf a o fs1))
  match setEntries (fun t k y => f t (mergeArg fs1 k y) y) o s3 fs2 with
  | none => none
  | some s4 => some (s4, .ref o)

/-- The fuel-bounded embedding of `internalDeepMerge` (lines 57–157).
Each case mirrors the source: identity fast path (line 59), non-object
source returned as-is (line 61), the clone path when the target side is not
an object (lines 63–86), the pair-table fast path (lines 89–90), the array
branches (92–113), the array-vs-object branch (115–124), the
"either side not a plain object" replacement (126–128) and the
plain-object merge (130–156). -/
def idm : Nat → Bool → St → Val → Val → Option (St × Val)
  | 0, _, _, _, _ => none
  | fuel + 1, ma, s, v1, v2 =>
    if v1 = v2 then some (s, v1)
    else
      match v2 with
      | .prim _ => some (s, v2)
      | .ref b =>
        match v1 with
        | .prim _ =>
          match findClone s.clones b with
          | some c => some (s, .ref c)
          | none =>
            match getNode s b with
            | some (.arr es) => cloneSeq (fun t x y => idm fuel ma t x y) s b es
            | some (.obj fs) => cloneMapNode (fun t x y => idm fuel ma t x y) s b fs
            | _ => some (s, .ref b)
        | .ref a =>
          match findPair s.pairs a b with
          | some p => some (s, .ref p)
          | none =>
            match getNode s b, getNode s a with
            | some (.arr ys), some (.arr xs) =>
              mergeSeqs (fun t x y => idm fuel ma t x y) ma s a b xs ys
            | some (.arr ys), _ =>
              pairCloneSeq (fun t x y => idm fuel ma t x y) s a b ys
            | some (.obj fs2), some (.arr _) =>
              pairCloneMap (fun t x y => idm fuel ma t x y) s a b fs2
            | some (.obj fs2), some (.obj fs1) =>
              mergeMaps (fun t x y => idm fuel ma t x y) s a b fs1 fs2
            | some (.obj _), _ => some (s, .ref b)
            | _, _ => some (s, .ref b)

/-- Fuel that always suffices for a heap `H` (shown by `claim3_theorem`):
one more than the number of possible clone-table entries plus pair-table
entries. -/
def fuelFor (H : List Node) : Nat :=
  H.length + H.length * H.length + 1

/-- The state at the start of a top-level call: the input heap and the two
freshly created (empty) side tables. -/
def initSt (H : List Node) : St :=
  ⟨H, [], []⟩

/-- The top-level wrapper `deepMerge` (lines 159–163): both roots
non-objects gives a fresh empty object, a single non-object root clones the
other side, otherwise the recursive merge runs on the two roots. -/
def deepMerge (ma : Bool) (H : List Node) (target source : Val) : Option (St × Val) :=
  if !isObject target && !isObject source then
    some (⟨H ++ [Node.obj []], [], []⟩, .ref H.length)
  else if !isObject target then
    idm (fuelFor H) ma (initSt H) (.prim .undefined) source
  else if !isObject source then
    idm (fuelFor H) ma (initSt H) (.prim .undefined) target
  else
    idm (fuelFor H) ma (initSt H) target source

/-! Observers used to state concrete facts about merge results. -/

/-- The value a merge returned, if it succeeded. -/
def resultVal (r : Option (St × Val)) : Option Val :=
  r.map Prod.snd

/-- The final heap of a merge (empty if the merge ran out of fuel). -/
def resultHeap (r : Option (St × Val)) : List Node :=
  match r with
  | some (s, _) => s.heap
  | none => []

/-- Follow a path of object keys through the heap starting at a value. -/
def valAt (s : St) : Val → List String → Option Val
  | v, [] => some v
  | .ref a, k :: ks =>
    match getNode s a with
    | some (.obj fs) =>
      match objFind fs k with
      | some v => valAt s v ks
      | none => none
    | _ => none
  | .prim _, _ :: _ => none

/-- Follow a path of object keys from the root of a merge result. -/
def pathVal (r : Option (St × Val)) (path : List String) : Option Val :=
  match r with
  | some (s, v) => valAt s v path
  | none => none

/-- The node a path of object keys leads to, if it ends at a reference. -/
def pathNode (r : Option (St × Val)) (path : List String) : Option Node :=
  match r with
  | some (s, v) =>
    match valAt s v path with
    | some (.ref a) => getNode s a
    | _ => none
  | none => none

/-- Addresses directly referenced by a node. -/
def childRefs : Node → List Nat
  | .arr es => es.filterMap (fun v => match v with | .ref a => some a | .prim _ => none)
  | .obj fs => fs.filterMap (fun kv => match kv.2 with | .ref a => some a | .prim _ => none)
  | .opaq _ => []

/-- Addresses reachable in at most `n` steps from a set of addresses. -/
def reachN (H : List Node) : Nat → List Nat → List Nat
  | 0, cur => cur
  | n + 1, cur =>
    reachN H n
      ((cur ++ cur.flatMap (fun a =>
        match H.get? a with
        | some nd => childRefs nd
        | none => [])).dedup)

/-- Whether the node at address `a` contains itself, directly or
transitively: `a` is reachable from the children of `a`. -/
def containsSelf (H : List Node) (a : Nat) : Bool :=
  (reachN H H.length
    (match H.get? a with
     | some nd => childRefs nd
     | none => [])).contains a

/-! Well-formedness of an input heap: every reference stays inside the
heap, and plain objects have unique keys (as JavaScript objects do). -/

/-- A value is closed with respect to heap size `N`. -/
def valOK (N : Nat) : Val → Prop
  | .prim _ => True
  | .ref a => a < N

instance (N : Nat) : (v : Val) → Decidable (valOK N v)
  | .prim _ => .isTrue trivial
  | .ref a => inferInstanceAs (Decidable (a < N))

/-- A node is well-formed with respect to heap size `N`. -/
def nodeOK (N : Nat) : Node → Prop
  | .arr es => ∀ v ∈ es, valOK N v
  | .obj fs => (∀ kv ∈ fs, valOK N kv.2) ∧ (fs.map Prod.fst).Nodup
  | .opaq _ => True

instance (N : Nat) : (n : Node) → Decidable (nodeOK N n)
  | .arr es => inferInstanceAs (Decidable (∀ v ∈ es, valOK N v))
  | .obj fs =>
    inferInstanceAs (Decidable ((∀ kv ∈ fs, valOK N kv.2) ∧ (fs.map Prod.fst).Nodup))
  | .opaq _ => .isTrue trivial

/-- A well-formed input heap. -/
def WFHeap (H : List Node) : Prop :=
  ∀ n ∈ H, nodeOK H.length n

instance (H : List Node) : Decidable (WFHeap H) :=
  inferInstanceAs (Decidable (∀ n ∈ H, nodeOK H.length n))

/-! Concrete graphs and final states used in the concrete laws and their
verification below. -/

/-- Heap for a directly self-referential target `t.self = t` (node 0) and a
source with single key `b = 2` (node 1). -/
def heapSelfRef : List Node := [.obj [("self", .ref 0)], .obj [("b", .prim (.num 2))]]

/-- Heap with a transitive target cycle: node 0 is `t` with `t.a = m`,
node 1 is `m` with `m.x = t`, node 2 is the source with `b = 2`. -/
def heapTransCycle : List Node :=
  [.obj [("a", .ref 1)], .obj [("x", .ref 0)], .obj [("b", .prim (.num 2))]]

/-- Heap with a target-only structured key: node 0 is the target whose key
`p` holds node 1 (an object with `x = 1`), node 2 the source with `b = 2`. -/
def heapAliased : List Node :=
  [.obj [("p", .ref 1)], .obj [("x", .prim (.num 1))], .obj [("b", .prim (.num 2))]]

/-- Heap for the deep key union law: target (nodes 0, 1) has `a = 1` and a
nested object `b` with `c = 2, d = 3`; source (nodes 2, 3) has a nested
object `b` with `c = 10` and `e = 4`. -/
def heapUnion : List Node :=
  [.obj [("a", .prim (.num 1)), ("b", .ref 1)],
   .obj [("c", .prim (.num 2)), ("d", .prim (.num 3))],
   .obj [("b", .ref 3), ("e", .prim (.num 4))],
   .obj [("c", .prim (.num 10))]]

/-- Heap for the array laws: target (nodes 0, 1) holds `arr = [1, 2]`,
source (nodes 2, 3) holds `arr = [3, 4]`. -/
def heapArrays : List Node :=
  [.obj [("arr", .ref 1)], .arr [.prim (.num 1), .prim (.num 2)],
   .obj [("arr", .ref 3)], .arr [.prim (.num 3), .prim (.num 4)]]

/-- Heap with mutually referential target and source roots. -/
def heapMutual : List Node := [.obj [("o", .ref 1)], .obj [("o", .ref 0)]]

/-- Heap with opaque leaves (say two dates) under the shared key `d` of
target (node 2) and source (node 3). -/
def heapOpaque : List Node :=
  [.opaq 100, .opaq 200, .obj [("d", .ref 0)], .obj [("d", .ref 1)]]

/-- Heap with a structured target value and an `undefined` source value at
the same key. -/
def heapUndef : List Node :=
  [.obj [("k", .ref 1)], .obj [("x", .prim (.num 5))], .obj [("k", .prim .undefined)]]

/-- Heap with one plain object holding `a = 1`. -/
def heapSingle : List Node := [.obj [("a", .prim (.num 1))]]

/-- Heap with two disjoint single-key objects. -/
def heapW1 : List Node := [.obj [("x", .prim (.num 1))], .obj [("y", .prim (.num 2))]]

/-- Final state of merging the two `heapW1` roots. -/
def stW1 : St :=
  ⟨[.obj [("x", .prim (.num 1))], .obj [("y", .prim (.num 2))],
    .obj [("x", .prim (.num 1)), ("y", .prim (.num 2))]], [], [(0, 1, 2)]⟩

/-- Final state of cloning the `heapSingle` root. -/
def stSingleClone : St :=
  ⟨[.obj [("a", .prim (.num 1))], .obj [("a", .prim (.num 1))]], [(0, 1)], []⟩

/-- Final state of merging the two `heapOpaque` roots. -/
def stOpaqueMerge : St :=
  ⟨[.opaq 100, .opaq 200, .obj [("d", .ref 0)], .obj [("d", .ref 1)],
    .obj [("d", .ref 1)]], [], [(2, 3, 4)]⟩

/-- Final state of merging the two `heapUndef` roots. -/
def stUndefMerge : St :=
  ⟨[.obj [("k", .ref 1)], .obj [("x", .prim (.num 5))], .obj [("k", .prim .undefined)],
    .obj [("k", .prim .undefined)]], [], [(0, 2, 3)]⟩

/-- Final state of merging the two `heapSelfRef` roots. -/
def stSelfMerge : St :=
  ⟨[.obj [("self", .ref 0)], .obj [("b", .prim (.num 2))],
    .obj [("self", .ref 2), ("b", .prim (.num 2))]], [], [(0, 1, 2)]⟩

/-- One state extends another: old heap cells unchanged, heap at least as
long, both tables grown by prepending. -/
def Extends (s s' : St) : Prop :=
  (∀ i, i < s.heap.length → s'.heap.get? i = s.heap.get? i) ∧
  s.heap.length ≤ s'.heap.length ∧
  (∃ l, s'.clones = l ++ s.clones) ∧ (∃ l, s'.pairs = l ++ s.pairs)

/-- Like `Extends` but the cell at `o` (the output node the current loop is
filling) may change. -/
def ExtendsExc (o : Nat) (s s' : St) : Prop :=
  (∀ i, i < s.heap.length → i ≠ o → s'.heap.get? i = s.heap.get? i) ∧
  s.heap.length ≤ s'.heap.length ∧
  (∃ l, s'.clones = l ++ s.clones) ∧ (∃ l, s'.pairs = l ++ s.pairs)

/-- Invariant of the state during one top-level merge over input heap `H0`. -/
structure Inv (H0 : List Node) (s : St) : Prop where
  ext : Extends (initSt H0) s
  ckeys : ∀ p ∈ s.clones, p.1 < H0.length ∧
    ∃ n, H0.get? p.1 = some n ∧ structuredN n = true
  pkeys : ∀ p ∈ s.pairs, p.1 < H0.length ∧ p.2.1 < H0.length ∧
    ∃ n, H0.get? p.2.1 = some n ∧ structuredN n = true
  cnd : (s.clones.map Prod.fst).Nodup
  pnd : (s.pairs.map (fun p => (p.1, p.2.1))).Nodup

/-! Pure lemmas about the association-list and table operations. -/

theorem objFind_objSet_self (fs : List (String × Val)) (k : String) (v : Val) :
    objFind (objSet fs k v) k = some v := by
  induction fs with
  | nil => simp [objSet, objFind]
  | cons kv rest ih =>
    obtain ⟨k', v'⟩ := kv
    by_cases h : k' = k
    · simp [objSet, h, objFind]
    · simp [objSet, h, objFind, ih]

theorem objFind_objSet_ne (fs : List (String × Val)) (k k' : String) (v : Val)
    (h : k' ≠ k) : objFind (objSet fs k v) k' = objFind fs k' := by
  have h' : ¬ k = k' := fun hh => h hh.symm
  induction fs with
  | nil => simp [objSet, objFind, h']
  | cons kv rest ih =>
    obtain ⟨k₀, v₀⟩ := kv
    by_cases h0 : k₀ = k
    · subst h0
      simp [objSet, objFind, h']
    · simp [objSet, h0, objFind, ih]

theorem keysOf_objSet_of_mem (fs : List (String × Val)) (k : String) (v : Val)
    (h : k ∈ keysOf fs) : keysOf (objSet fs k v) = keysOf fs := by
  induction fs with
  | nil => simp [keysOf] at h
  | cons kv rest ih =>
    obtain ⟨k₀, v₀⟩ := kv
    by_cases h0 : k₀ = k
    · simp [objSet, h0, keysOf]
    · have hk : k ∈ keysOf rest := by
        simp [keysOf] at h
        rcases h with h | h
        · exact absurd h.symm h0
        · simpa [keysOf] using h
      simp [objSet, h0, keysOf, ih hk]
      simpa [keysOf] using ih hk

theorem keysOf_objSet_of_not_mem (fs : List (String × Val)) (k : String) (v : Val)
    (h : ¬ k ∈ keysOf fs) : keysOf (objSet fs k v) = keysOf fs ++ [k] := by
  induction fs with
  | nil => simp [objSet, keysOf]
  | cons kv rest ih =>
    obtain ⟨k₀, v₀⟩ := kv
    have h0 : k₀ ≠ k := by
      intro hh; exact h (by simp [keysOf, hh])
    have hk : ¬ k ∈ keysOf rest := by
      intro hh; exact h (by simp [keysOf]; right; simpa [keysOf] using hh)
    simp [objSet, h0, keysOf]
    simpa [keysOf] using ih hk

theorem objFind_mem {fs : List (String × Val)} {k : String} {v : Val}
    (h : objFind fs k = some v) : (k, v) ∈ fs := by
  induction fs with
  | nil => simp [objFind] at h
  | cons kv rest ih =>
    obtain ⟨k₀, v₀⟩ := kv
    by_cases h0 : k₀ = k
    · subst h0
      simp [objFind] at h
      simp [h]
    · simp [objFind, h0] at h
      simp [ih h]

theorem keysOf_cons (kv : String × Val) (rest : List (String × Val)) :
    keysOf (kv :: rest) = kv.1 :: keysOf rest := rfl

theorem objFind_eq_none_iff {fs : List (String × Val)} {k : String} :
    objFind fs k = none ↔ ¬ k ∈ keysOf fs := by
  induction fs with
  | nil => simp [objFind, keysOf]
  | cons kv rest ih =>
    obtain ⟨k₀, v₀⟩ := kv
    rw [keysOf_cons]
    by_cases h0 : k₀ = k
    · subst h0
      simp [objFind]
    · have h0' : ¬ k = k₀ := fun hh => h0 hh.symm
      simp [objFind, h0, h0', ih]

theorem mem_objFind {fs : List (String × Val)} {k : String} {v : Val}
    (hnd : (keysOf fs).Nodup) (h : (k, v) ∈ fs) : objFind fs k = some v := by
  induction fs with
  | nil => simp at h
  | cons kv rest ih =>
    obtain ⟨k₀, v₀⟩ := kv
    rw [keysOf_cons] at hnd
    have hnd' := List.nodup_cons.mp hnd
    rcases List.mem_cons.mp h with h | h
    · injection h with h1 h2
      subst h1; subst h2
      simp [objFind]
    · have hk : k ∈ keysOf rest := by
        simp only [keysOf, List.mem_map]
        exact ⟨(k, v), h, rfl⟩
      have h0 : k₀ ≠ k := fun hh => hnd'.1 (hh ▸ hk)
      simp [objFind, h0, ih hnd'.2 h]

theorem keysOf_fixSelf (a o : Nat) (fs : List (String × Val)) :
    keysOf (fixSelf a o fs) = keysOf fs := by
  induction fs with
  | nil => rfl
  | cons kv rest ih =>
    have hh : fixSelf a o (kv :: rest) =
        (if kv.2 = Val.ref a then (kv.1, Val.ref o) else kv) :: fixSelf a o rest := rfl
    rw [hh, keysOf_cons, keysOf_cons, ih]
    by_cases h : kv.2 = Val.ref a <;> simp [h]

theorem objFind_fixSelf (a o : Nat) (fs : List (String × Val)) (k : String) :
    objFind (fixSelf a o fs) k =
      (objFind fs k).map (fun v => if v = Val.ref a then Val.ref o else v) := by
  induction fs with
  | nil => simp [fixSelf, objFind]
  | cons kv rest ih =>
    obtain ⟨k₀, v₀⟩ := kv
    have hh : fixSelf a o ((k₀, v₀) :: rest) =
        (if v₀ = Val.ref a then (k₀, Val.ref o) else (k₀, v₀)) :: fixSelf a o rest := rfl
    rw [hh]
    by_cases h : v₀ = Val.ref a
    · rw [if_pos h]
      by_cases h0 : k₀ = k <;> simp [objFind, h0, ih, h]
    · rw [if_neg h]
      by_cases h0 : k₀ = k <;> simp [objFind, h0, ih, h]

theorem findClone_eq_none {cs : List (Nat × Nat)} {b : Nat}
    (h : findClone cs b = none) : ∀ p ∈ cs, p.1 ≠ b := by
  induction cs with
  | nil => simp
  | cons q rest ih =>
    obtain ⟨x, y⟩ := q
    by_cases h0 : x = b
    · simp [findClone, h0] at h
    · simp [findClone, h0] at h
      intro p hp
      rcases List.mem_cons.mp hp with hp | hp
      · subst hp; exact h0
      · exact ih h p hp

theorem findClone_mem {cs : List (Nat × Nat)} {b o : Nat}
    (h : findClone cs b = some o) : (b, o) ∈ cs := by
  induction cs with
  | nil => simp [findClone] at h
  | cons q rest ih =>
    obtain ⟨x, y⟩ := q
    by_cases h0 : x = b
    · subst h0
      simp [findClone] at h
      simp [h]
    · simp [findClone, h0] at h
      simp [ih h]

theorem findPair_eq_none {ps : List (Nat × Nat × Nat)} {a b : Nat}
    (h : findPair ps a b = none) : ∀ p ∈ ps, ¬ (p.1 = a ∧ p.2.1 = b) := by
  induction ps with
  | nil => simp
  | cons q rest ih =>
    obtain ⟨x, y, o⟩ := q
    by_cases h0 : x = a ∧ y = b
    · simp [findPair, h0] at h
    · simp only [findPair, if_neg h0] at h
      intro p hp
      rcases List.mem_cons.mp hp with hp | hp
      · subst hp; exact h0
      · exact ih h p hp

theorem findPair_mem {ps : List (Nat × Nat × Nat)} {a b o : Nat}
    (h : findPair ps a b = some o) : (a, b, o) ∈ ps := by
  induction ps with
  | nil => simp [findPair] at h
  | cons q rest ih =>
    obtain ⟨x, y, o'⟩ := q
    by_cases h0 : x = a ∧ y = b
    · obtain ⟨h1, h2⟩ := h0
      subst h1; subst h2
      simp [findPair] at h
      simp [h]
    · simp only [findPair, if_neg h0] at h
      simp [ih h]

/-! State evolution: a merge call only appends to the heap, mutates nodes it
allocated itself, and grows the two side tables. -/

theorem extends_refl (s : St) : Extends s s :=
  ⟨fun _ _ => rfl, le_refl _, ⟨[], rfl⟩, ⟨[], rfl⟩⟩

theorem extends_trans {s1 s2 s3 : St} (h1 : Extends s1 s2) (h2 : Extends s2 s3) :
    Extends s1 s3 := by
  obtain ⟨f1, l1, ⟨c1, hc1⟩, ⟨p1, hp1⟩⟩ := h1
  obtain ⟨f2, l2, ⟨c2, hc2⟩, ⟨p2, hp2⟩⟩ := h2
  refine ⟨fun i hi => ?_, le_trans l1 l2, ⟨c2 ++ c1, by rw [hc2, hc1, List.append_assoc]⟩,
    ⟨p2 ++ p1, by rw [hp2, hp1, List.append_assoc]⟩⟩
  rw [f2 i (lt_of_lt_of_le hi l1), f1 i hi]

theorem extendsExc_refl (o : Nat) (s : St) : ExtendsExc o s s :=
  ⟨fun _ _ _ => rfl, le_refl _, ⟨[], rfl⟩, ⟨[], rfl⟩⟩

theorem extendsExc_trans {o : Nat} {s1 s2 s3 : St} (h1 : ExtendsExc o s1 s2)
    (h2 : ExtendsExc o s2 s3) : ExtendsExc o s1 s3 := by
  obtain ⟨f1, l1, ⟨c1, hc1⟩, ⟨p1, hp1⟩⟩ := h1
  obtain ⟨f2, l2, ⟨c2, hc2⟩, ⟨p2, hp2⟩⟩ := h2
  refine ⟨fun i hi hio => ?_, le_trans l1 l2,
    ⟨c2 ++ c1, by rw [hc2, hc1, List.append_assoc]⟩,
    ⟨p2 ++ p1, by rw [hp2, hp1, List.append_assoc]⟩⟩
  rw [f2 i (lt_of_lt_of_le hi l1) hio, f1 i hi hio]

theorem Extends.toExc {o : Nat} {s s' : St} (h : Extends s s') : ExtendsExc o s s' :=
  ⟨fun i hi _ => h.1 i hi, h.2.1, h.2.2.1, h.2.2.2⟩

theorem extends_of_exc {o : Nat} {s s' : St} (h : ExtendsExc o s s')
    (ho : s.heap.length ≤ o) : Extends s s' :=
  ⟨fun i hi => h.1 i hi (Nat.ne_of_lt (lt_of_lt_of_le hi ho)), h.2.1, h.2.2.1, h.2.2.2⟩

theorem setNode_extendsExc (s : St) (o : Nat) (n : Node) :
    ExtendsExc o s (setNode s o n) := by
  refine ⟨fun i hi hio => ?_, ?_, ⟨[], rfl⟩, ⟨[], rfl⟩⟩
  · exact List.get?_set_ne n s.heap (fun hh => hio hh.symm)
  · simp [setNode]

theorem extends_through_exc {o : Nat} {s s2 s3 : St} (h1 : Extends s s2)
    (ho : s.heap.length ≤ o) (h2 : ExtendsExc o s2 s3) : Extends s s3 := by
  obtain ⟨f1, l1, ⟨c1, hc1⟩, ⟨p1, hp1⟩⟩ := h1
  obtain ⟨f2, l2, ⟨c2, hc2⟩, ⟨p2, hp2⟩⟩ := h2
  refine ⟨fun i hi => ?_, le_trans l1 l2,
    ⟨c2 ++ c1, by rw [hc2, hc1, List.append_assoc]⟩,
    ⟨p2 ++ p1, by rw [hp2, hp1, List.append_assoc]⟩⟩
  rw [f2 i (lt_of_lt_of_le hi l1) (Nat.ne_of_lt (lt_of_lt_of_le hi ho)), f1 i hi]

theorem extends_clones_le {s s' : St} (h : Extends s s') :
    s.clones.length ≤ s'.clones.length ∧ s.pairs.length ≤ s'.pairs.length := by
  obtain ⟨-, -, ⟨c, hc⟩, ⟨p, hp⟩⟩ := h
  constructor
  · rw [hc]; simp
  · rw [hp]; simp

theorem extends_append_cons_clone (s : St) (nd : Node) (b o : Nat) :
    Extends s ⟨s.heap ++ [nd], (b, o) :: s.clones, s.pairs⟩ := by
  refine ⟨fun i hi => List.get?_append hi, by simp, ⟨[(b, o)], rfl⟩, ⟨[], rfl⟩⟩

theorem extends_append_cons_pair (s : St) (nd : Node) (a b o : Nat) :
    Extends s ⟨s.heap ++ [nd], s.clones, (a, b, o) :: s.pairs⟩ := by
  refine ⟨fun i hi => List.get?_append hi, by simp, ⟨[], rfl⟩, ⟨[(a, b, o)], rfl⟩⟩

/-! The per-call invariant: the initial heap is intact, both tables only
hold input addresses of structured (array or plain object) source nodes,
and neither table ever registers the same key twice. -/

theorem inv_init (H0 : List Node) : Inv H0 (initSt H0) :=
  ⟨extends_refl _, by simp [initSt], by simp [initSt], by simp [initSt], by simp [initSt]⟩

theorem Inv.getNode_input {H0 : List Node} {s : St} (h : Inv H0 s) {b : Nat}
    (hb : b < H0.length) : getNode s b = H0.get? b :=
  h.ext.1 b hb

theorem Inv.len_le {H0 : List Node} {s : St} (h : Inv H0 s) :
    H0.length ≤ s.heap.length :=
  h.ext.2.1

theorem inv_setNode {H0 : List Node} {s : St} (h : Inv H0 s) {o : Nat}
    (ho : H0.length ≤ o) (n : Node) : Inv H0 (setNode s o n) := by
  refine ⟨?_, h.ckeys, h.pkeys, h.cnd, h.pnd⟩
  exact extends_through_exc h.ext ho (setNode_extendsExc s o n)

theorem inv_extends_trans {H0 : List Node} {s s' : St} (h : Inv H0 s)
    (hext : Extends s s')
    (hc : ∀ p ∈ s'.clones, p.1 < H0.length ∧
      ∃ n, H0.get? p.1 = some n ∧ structuredN n = true)
    (hp : ∀ p ∈ s'.pairs, p.1 < H0.length ∧ p.2.1 < H0.length ∧
      ∃ n, H0.get? p.2.1 = some n ∧ structuredN n = true)
    (hcn : (s'.clones.map Prod.fst).Nodup)
    (hpn : (s'.pairs.map (fun p => (p.1, p.2.1))).Nodup) : Inv H0 s' :=
  ⟨extends_trans h.ext hext, hc, hp, hcn, hpn⟩

/-! Equations exposing which branch of `internalDeepMerge` runs in each
situation; each mirrors one early return or dispatch of the source. -/

theorem idm_same (f : Nat) (ma : Bool) (s : St) (v : Val) :
    idm (f + 1) ma s v v = some (s, v) := by
  simp [idm]

theorem idm_prim_src (f : Nat) (ma : Bool) (s : St) (x : Val) (p : SVal) :
    idm (f + 1) ma s x (.prim p) = some (s, .prim p) := by
  by_cases h : x = .prim p
  · subst h; simp [idm]
  · simp [idm, h]

theorem idm_clone_hit (f : Nat) (ma : Bool) (s : St) (p : SVal) (b c : Nat)
    (hc : findClone s.clones b = some c) :
    idm (f + 1) ma s (.prim p) (.ref b) = some (s, .ref c) := by
  simp [idm, hc]

theorem idm_clone_arr (f : Nat) (ma : Bool) (s : St) (p : SVal) (b : Nat) (es : List Val)
    (hc : findClone s.clones b = none) (hb : getNode s b = some (.arr es)) :
    idm (f + 1) ma s (.prim p) (.ref b) =
      cloneSeq (fun t x y => idm f ma t x y) s b es := by
  simp [idm, hc, hb]

theorem idm_clone_obj (f : Nat) (ma : Bool) (s : St) (p : SVal) (b : Nat)
    (fs : List (String × Val))
    (hc : findClone s.clones b = none) (hb : getNode s b = some (.obj fs)) :
    idm (f + 1) ma s (.prim p) (.ref b) =
      cloneMapNode (fun t x y => idm f ma t x y) s b fs := by
  simp [idm, hc, hb]

theorem idm_clone_opaq (f : Nat) (ma : Bool) (s : St) (p : SVal) (b tg : Nat)
    (hc : findClone s.clones b = none) (hb : getNode s b = some (.opaq tg)) :
    idm (f + 1) ma s (.prim p) (.ref b) = some (s, .ref b) := by
  simp [idm, hc, hb]

theorem idm_clone_miss (f : Nat) (ma : Bool) (s : St) (p : SVal) (b : Nat)
    (hc : findClone s.clones b = none) (hb : getNode s b = none) :
    idm (f + 1) ma s (.prim p) (.ref b) = some (s, .ref b) := by
  simp [idm, hc, hb]

theorem idm_pair_hit (f : Nat) (ma : Bool) (s : St) (a b p : Nat) (hab : a ≠ b)
    (hp : findPair s.pairs a b = some p) :
    idm (f + 1) ma s (.ref a) (.ref b) = some (s, .ref p) := by
  simp [idm, hab, hp]

theorem idm_seq_seq (f : Nat) (ma : Bool) (s : St) (a b : Nat) (xs ys : List Val)
    (hab : a ≠ b) (hp : findPair s.pairs a b = none)
    (hb : getNode s b = some (.arr ys)) (ha : getNode s a = some (.arr xs)) :
    idm (f + 1) ma s (.ref a) (.ref b) =
      mergeSeqs (fun t x y => idm f ma t x y) ma s a b xs ys := by
  simp [idm, hab, hp, hb, ha]

theorem idm_seq_obj (f : Nat) (ma : Bool) (s : St) (a b : Nat) (ys : List Val)
    (fs1 : List (String × Val)) (hab : a ≠ b) (hp : findPair s.pairs a b = none)
    (hb : getNode s b = some (.arr ys)) (ha : getNode s a = some (.obj fs1)) :
    idm (f + 1) ma s (.ref a) (.ref b) =
      pairCloneSeq (fun t x y => idm f ma t x y) s a b ys := by
  simp [idm, hab, hp, hb, ha]

theorem idm_seq_opaq (f : Nat) (ma : Bool) (s : St) (a b tg : Nat) (ys : List Val)
    (hab : a ≠ b) (hp : findPair s.pairs a b = none)
    (hb : getNode s b = some (.arr ys)) (ha : getNode s a = some (.opaq tg)) :
    idm (f + 1) ma s (.ref a) (.ref b) =
      pairCloneSeq (fun t x y => idm f ma t x y) s a b ys := by
  simp [idm, hab, hp, hb, ha]

theorem idm_seq_miss (f : Nat) (ma : Bool) (s : St) (a b : Nat) (ys : List Val)
    (hab : a ≠ b) (hp : findPair s.pairs a b = none)
    (hb : getNode s b = some (.arr ys)) (ha : getNode s a = none) :
    idm (f + 1) ma s (.ref a) (.ref b) =
      pairCloneSeq (fun t x y => idm f ma t x y) s a b ys := by
  simp [idm, hab, hp, hb, ha]

theorem idm_obj_arr (f : Nat) (ma : Bool) (s : St) (a b : Nat) (xs : List Val)
    (fs2 : List (String × Val)) (hab : a ≠ b) (hp : findPair s.pairs a b = none)
    (hb : getNode s b = some (.obj fs2)) (ha : getNode s a = some (.arr xs)) :
    idm (f + 1) ma s (.ref a) (.ref b) =
      pairCloneMap (fun t x y => idm f ma t x y) s a b fs2 := by
  simp [idm, hab, hp, hb, ha]

theorem idm_obj_obj (f : Nat) (ma : Bool) (s : St) (a b : Nat)
    (fs1 fs2 : List (String × Val)) (hab : a ≠ b) (hp : findPair s.pairs a b = none)
    (hb : getNode s b = some (.obj fs2)) (ha : getNode s a = some (.obj fs1)) :
    idm (f + 1) ma s (.ref a) (.ref b) =
      mergeMaps (fun t x y => idm f ma t x y) s a b fs1 fs2 := by
  simp [idm, hab, hp, hb, ha]

theorem idm_obj_opaq (f : Nat) (ma : Bool) (s : St) (a b tg : Nat)
    (fs2 : List (String × Val)) (hab : a ≠ b) (hp : findPair s.pairs a b = none)
    (hb : getNode s b = some (.obj fs2)) (ha : getNode s a = some (.opaq tg)) :
    idm (f + 1) ma s (.ref a) (.ref b) = some (s, .ref b) := by
  simp [idm, hab, hp, hb, ha]

theorem idm_obj_miss (f : Nat) (ma : Bool) (s : St) (a b : Nat)
    (fs2 : List (String × Val)) (hab : a ≠ b) (hp : findPair s.pairs a b = none)
    (hb : getNode s b = some (.obj fs2)) (ha : getNode s a = none) :
    idm (f + 1) ma s (.ref a) (.ref b) = some (s, .ref b) := by
  simp [idm, hab, hp, hb, ha]

theorem idm_opaq_src (f : Nat) (ma : Bool) (s : St) (a b tg : Nat) (hab : a ≠ b)
    (hp : findPair s.pairs a b = none) (hb : getNode s b = some (.opaq tg)) :
    idm (f + 1) ma s (.ref a) (.ref b) = some (s, .ref b) := by
  simp [idm, hab, hp, hb]

theorem idm_src_miss (f : Nat) (ma : Bool) (s : St) (a b : Nat) (hab : a ≠ b)
    (hp : findPair s.pairs a b = none) (hb : getNode s b = none) :
    idm (f + 1) ma s (.ref a) (.ref b) = some (s, .ref b) := by
  simp [idm, hab, hp, hb]

/-! Frame lemma: a merge call never changes a pre-existing heap cell and
only grows the two side tables. -/

theorem pushElems_extendsExc {f : MergeF} {o : Nat}
    (hf : ∀ t x y t' w, f t x y = some (t', w) → Extends t t') :
    ∀ (es : List Val) (s s' : St), pushElems f o s es = some s' → ExtendsExc o s s' := by
  intro es
  induction es with
  | nil =>
    intro s s' h
    simp only [pushElems] at h
    injection h with h
    subst h
    exact extendsExc_refl o s
  | cons e es ih =>
    intro s s' h
    simp only [pushElems] at h
    split at h
    · exact Option.noConfusion h
    next s1 v heq1 =>
      split at h
      next cur heq2 =>
        exact extendsExc_trans (Extends.toExc (hf _ _ _ _ _ heq1))
          (extendsExc_trans (setNode_extendsExc s1 o _) (ih _ _ h))
      next => exact Option.noConfusion h

theorem setEntries_extendsExc {g : St → String → Val → Option (St × Val)} {o : Nat}
    (hg : ∀ t k y t' w, g t k y = some (t', w) → Extends t t') :
    ∀ (entries : List (String × Val)) (s s' : St),
      setEntries g o s entries = some s' → ExtendsExc o s s' := by
  intro entries
  induction entries with
  | nil =>
    intro s s' h
    simp only [setEntries] at h
    injection h with h
    subst h
    exact extendsExc_refl o s
  | cons kv entries ih =>
    intro s s' h
    obtain ⟨k, y⟩ := kv
    simp only [setEntries] at h
    split at h
    · exact Option.noConfusion h
    next s1 v heq1 =>
      split at h
      next cur heq2 =>
        exact extendsExc_trans (Extends.toExc (hg _ _ _ _ _ heq1))
          (extendsExc_trans (setNode_extendsExc s1 o _) (ih _ _ h))
      next => exact Option.noConfusion h

theorem cloneSeq_extends {f : MergeF} {s : St} {b : Nat} {es : List Val} {s' : St} {v : Val}
    (hf : ∀ t x y t' w, f t x y = some (t', w) → Extends t t')
    (h : cloneSeq f s b es = some (s', v)) : Extends s s' := by
  simp only [cloneSeq] at h
  split at h
  · exact Option.noConfusion h
  next s3 heq =>
    injection h with h
    injection h with h1 h2
    subst h1
    exact extends_through_exc (extends_append_cons_clone s (Node.arr []) b s.heap.length)
      (by simp) (pushElems_extendsExc hf es _ _ heq)

theorem cloneMapNode_extends {f : MergeF} {s : St} {b : Nat}
    {fs : List (String × Val)} {s' : St} {v : Val}
    (hf : ∀ t x y t' w, f t x y = some (t', w) → Extends t t')
    (h : cloneMapNode f s b fs = some (s', v)) : Extends s s' := by
  simp only [cloneMapNode] at h
  split at h
  · exact Option.noConfusion h
  next s3 heq =>
    injection h with h
    injection h with h1 h2
    subst h1
    refine extends_through_exc (extends_append_cons_clone s (Node.obj []) b s.heap.length)
      (by simp) (setEntries_extendsExc ?_ fs _ _ heq)
    intro t k y t' w hh
    exact hf _ _ _ _ _ hh

theorem pairCloneSeq_extends {f : MergeF} {s : St} {a b : Nat} {ys : List Val}
    {s' : St} {v : Val}
    (hf : ∀ t x y t' w, f t x y = some (t', w) → Extends t t')
    (h : pairCloneSeq f s a b ys = some (s', v)) : Extends s s' := by
  simp only [pairCloneSeq] at h
  split at h
  · exact Option.noConfusion h
  next s3 heq =>
    injection h with h
    injection h with h1 h2
    subst h1
    exact extends_through_exc (extends_append_cons_pair s (Node.arr []) a b s.heap.length)
      (by simp) (pushElems_extendsExc hf ys _ _ heq)

theorem mergeSeqs_extends {f : MergeF} {ma : Bool} {s : St} {a b : Nat}
    {xs ys : List Val} {s' : St} {v : Val}
    (hf : ∀ t x y t' w, f t x y = some (t', w) → Extends t t')
    (h : mergeSeqs f ma s a b xs ys = some (s', v)) : Extends s s' := by
  simp only [mergeSeqs] at h
  split at h
  · exact Option.noConfusion h
  next s3 heq =>
    injection h with h
    injection h with h1 h2
    subst h1
    exact extends_through_exc (extends_append_cons_pair s (Node.arr []) a b s.heap.length)
      (by simp) (pushElems_extendsExc hf _ _ _ heq)

theorem pairCloneMap_extends {f : MergeF} {s : St} {a b : Nat}
    {fs : List (String × Val)} {s' : St} {v : Val}
    (hf : ∀ t x y t' w, f t x y = some (t', w) → Extends t t')
    (h : pairCloneMap f s a b fs = some (s', v)) : Extends s s' := by
  simp only [pairCloneMap] at h
  split at h
  · exact Option.noConfusion h
  next s3 heq =>
    injection h with h
    injection h with h1 h2
    subst h1
    refine extends_through_exc (extends_append_cons_pair s (Node.obj []) a b s.heap.length)
      (by simp) (setEntries_extendsExc ?_ fs _ _ heq)
    intro t k y t' w hh
    exact hf _ _ _ _ _ hh

theorem mergeMaps_extends {f : MergeF} {s : St} {a b : Nat}
    {fs1 fs2 : List (String × Val)} {s' : St} {v : Val}
    (hf : ∀ t x y t' w, f t x y = some (t', w) → Extends t t')
    (h : mergeMaps f s a b fs1 fs2 = some (s', v)) : Extends s s' := by
  simp only [mergeMaps] at h
  split at h
  · exact Option.noConfusion h
  next s4 heq =>
    injection h with h
    injection h with h1 h2
    subst h1
    refine extends_through_exc ?_ (le_refl _) (setEntries_extendsExc ?_ fs2 _ _ heq)
    · exact extends_through_exc (extends_append_cons_pair s (Node.obj fs1) a b s.heap.length)
        (le_refl _) (setNode_extendsExc _ s.heap.length _)
    · intro t k y t' w hh
      exact hf _ _ _ _ _ hh

theorem idm_extends :
    ∀ (fuel : Nat) (ma : Bool) (s : St) (v1 v2 : Val) (s' : St) (v : Val),
      idm fuel ma s v1 v2 = some (s', v) → Extends s s' := by
  intro fuel
  induction fuel with
  | zero =>
    intro ma s v1 v2 s' v h
    exact Option.noConfusion h
  | succ f ih =>
    intro ma s v1 v2 s' v h
    have hf : ∀ t x y t' w, idm f ma t x y = some (t', w) → Extends t t' :=
      fun t x y t' w hh => ih ma t x y t' w hh
    by_cases he : v1 = v2
    · rw [he, idm_same] at h
      injection h with h
      injection h with h1 h2
      subst h1
      exact extends_refl s
    · cases v2 with
      | prim p =>
        rw [idm_prim_src] at h
        injection h with h
        injection h with h1 h2
        subst h1
        exact extends_refl s
      | ref b =>
        cases v1 with
        | prim p =>
          cases hc : findClone s.clones b with
          | some c =>
            rw [idm_clone_hit f ma s p b c hc] at h
            injection h with h
            injection h with h1 h2
            subst h1
            exact extends_refl s
          | none =>
            cases hb : getNode s b with
            | none =>
              rw [idm_clone_miss f ma s p b hc hb] at h
              injection h with h
              injection h with h1 h2
              subst h1
              exact extends_refl s
            | some nd =>
              cases nd with
              | arr es =>
                rw [idm_clone_arr f ma s p b es hc hb] at h
                exact cloneSeq_extends hf h
              | obj fs =>
                rw [idm_clone_obj f ma s p b fs hc hb] at h
                exact cloneMapNode_extends hf h
              | opaq tg =>
                rw [idm_clone_opaq f ma s p b tg hc hb] at h
                injection h with h
                injection h with h1 h2
                subst h1
                exact extends_refl s
        | ref a =>
          have hab : a ≠ b := fun hh => he (by rw [hh])
          cases hp : findPair s.pairs a b with
          | some q =>
            rw [idm_pair_hit f ma s a b q hab hp] at h
            injection h with h
            injection h with h1 h2
            subst h1
            exact extends_refl s
          | none =>
            cases hb : getNode s b with
            | none =>
              rw [idm_src_miss f ma s a b hab hp hb] at h
              injection h with h
              injection h with h1 h2
              subst h1
              exact extends_refl s
            | some nd =>
              cases nd with
              | arr ys =>
                cases ha : getNode s a with
                | none =>
                  rw [idm_seq_miss f ma s a b ys hab hp hb ha] at h
                  exact pairCloneSeq_extends hf h
                | some nd1 =>
                  cases nd1 with
                  | arr xs =>
                    rw [idm_seq_seq f ma s a b xs ys hab hp hb ha] at h
                    exact mergeSeqs_extends hf h
                  | obj fs1 =>
                    rw [idm_seq_obj f ma s a b ys fs1 hab hp hb ha] at h
                    exact pairCloneSeq_extends hf h
                  | opaq tg =>
                    rw [idm_seq_opaq f ma s a b tg ys hab hp hb ha] at h
                    exact pairCloneSeq_extends hf h
              | obj fs2 =>
                cases ha : getNode s a with
                | none =>
                  rw [idm_obj_miss f ma s a b fs2 hab hp hb ha] at h
                  injection h with h
                  injection h with h1 h2
                  subst h1
                  exact extends_refl s
                | some nd1 =>
                  cases nd1 with
                  | arr xs =>
                    rw [idm_obj_arr f ma s a b xs fs2 hab hp hb ha] at h
                    exact pairCloneMap_extends hf h
                  | obj fs1 =>
                    rw [idm_obj_obj f ma s a b fs1 fs2 hab hp hb ha] at h
                    exact mergeMaps_extends hf h
                  | opaq tg =>
                    rw [idm_obj_opaq f ma s a b tg fs2 hab hp hb ha] at h
                    injection h with h
                    injection h with h1 h2
                    subst h1
                    exact extends_refl s
              | opaq tg =>
                rw [idm_opaq_src f ma s a b tg hab hp hb] at h
                injection h with h
                injection h with h1 h2
                subst h1
                exact extends_refl s

/-! Preservation of the invariant `Inv` across a merge call. -/

theorem wf_node {H0 : List Node} (hwf : WFHeap H0) {b : Nat} {n : Node}
    (hb : H0.get? b = some n) : nodeOK H0.length n :=
  hwf n (List.get?_mem hb)

theorem mergeArg_valOK {N : Nat} {fs1 : List (String × Val)}
    (h : ∀ kv ∈ fs1, valOK N kv.2) (k : String) (bv : Val) :
    valOK N (mergeArg fs1 k bv) := by
  unfold mergeArg
  cases hf : objFind fs1 k with
  | none => trivial
  | some av =>
    by_cases hio : isObject av && isObject bv
    · simpa [hio] using h (k, av) (objFind_mem hf)
    · simp only [hio, if_neg]
      split <;> trivial

theorem inv_register_clone {H0 : List Node} {s : St} (h : Inv H0 s) {b : Nat} {n : Node}
    (hb : b < H0.length) (hn : H0.get? b = some n) (hstr : structuredN n = true)
    (hmiss : findClone s.clones b = none) (nd : Node) :
    Inv H0 ⟨s.heap ++ [nd], (b, s.heap.length) :: s.clones, s.pairs⟩ := by
  refine ⟨extends_trans h.ext (extends_append_cons_clone s nd b s.heap.length),
    ?_, ?_, ?_, h.pnd⟩
  · intro p hp
    rcases List.mem_cons.mp hp with hp | hp
    · subst hp; exact ⟨hb, n, hn, hstr⟩
    · exact h.ckeys p hp
  · intro p hp
    exact h.pkeys p hp
  · simp only [List.map_cons]
    refine List.nodup_cons.mpr ⟨?_, h.cnd⟩
    intro hmem
    rw [List.mem_map] at hmem
    obtain ⟨q, hq, hq1⟩ := hmem
    exact findClone_eq_none hmiss q hq hq1

theorem inv_register_pair {H0 : List Node} {s : St} (h : Inv H0 s) {a b : Nat} {n : Node}
    (ha : a < H0.length) (hb : b < H0.length) (hn : H0.get? b = some n)
    (hstr : structuredN n = true) (hmiss : findPair s.pairs a b = none) (nd : Node) :
    Inv H0 ⟨s.heap ++ [nd], s.clones, (a, b, s.heap.length) :: s.pairs⟩ := by
  refine ⟨extends_trans h.ext (extends_append_cons_pair s nd a b s.heap.length),
    ?_, ?_, h.cnd, ?_⟩
  · intro p hp
    exact h.ckeys p hp
  · intro p hp
    rcases List.mem_cons.mp hp with hp | hp
    · subst hp; exact ⟨ha, hb, n, hn, hstr⟩
    · exact h.pkeys p hp
  · simp only [List.map_cons]
    refine List.nodup_cons.mpr ⟨?_, h.pnd⟩
    intro hmem
    rw [List.mem_map] at hmem
    obtain ⟨q, hq, hq1⟩ := hmem
    have h1 : q.1 = a := congrArg Prod.fst hq1
    have h2 : q.2.1 = b := congrArg Prod.snd hq1
    exact findPair_eq_none hmiss q hq ⟨h1, h2⟩

theorem pushElems_inv {H0 : List Node} {f : MergeF} {o : Nat} :
    ∀ (es : List Val) (s s' : St),
      (∀ t y, y ∈ es → ∀ t' w, f t (.prim .undefined) y = some (t', w) → Inv H0 t → Inv H0 t') →
      pushElems f o s es = some s' → Inv H0 s → H0.length ≤ o → Inv H0 s' := by
  intro es
  induction es with
  | nil =>
    intro s s' _ h hs _
    simp only [pushElems] at h
    injection h with h
    subst h
    exact hs
  | cons e es ih =>
    intro s s' hf h hs ho
    simp only [pushElems] at h
    split at h
    · exact Option.noConfusion h
    next s1 v heq1 =>
      split at h
      next cur heq2 =>
        have hs1 : Inv H0 s1 := hf s e (by simp) _ _ heq1 hs
        have hs2 : Inv H0 (setNode s1 o (.arr (cur ++ [v]))) := inv_setNode hs1 ho _
        exact ih _ _ (fun t y hy t' w hh ht => hf t y (by simp [hy]) t' w hh ht) h hs2 ho
      next => exact Option.noConfusion h

theorem setEntries_inv {H0 : List Node} {g : St → String → Val → Option (St × Val)} {o : Nat} :
    ∀ (entries : List (String × Val)) (s s' : St),
      (∀ t kv, kv ∈ entries → ∀ t' w, g t kv.1 kv.2 = some (t', w) → Inv H0 t → Inv H0 t') →
      setEntries g o s entries = some s' → Inv H0 s → H0.length ≤ o → Inv H0 s' := by
  intro entries
  induction entries with
  | nil =>
    intro s s' _ h hs _
    simp only [setEntries] at h
    injection h with h
    subst h
    exact hs
  | cons kv entries ih =>
    intro s s' hg h hs ho
    obtain ⟨k, y⟩ := kv
    simp only [setEntries] at h
    split at h
    · exact Option.noConfusion h
    next s1 v heq1 =>
      split at h
      next cur heq2 =>
        have hs1 : Inv H0 s1 := hg s (k, y) (by simp) _ _ heq1 hs
        have hs2 : Inv H0 (setNode s1 o (.obj (objSet cur k v))) := inv_setNode hs1 ho _
        exact ih _ _ (fun t kv hkv t' w hh ht => hg t kv (by simp [hkv]) t' w hh ht) h hs2 ho
      next => exact Option.noConfusion h

theorem idm_inv {H0 : List Node} (hwf : WFHeap H0) :
    ∀ (fuel : Nat) (ma : Bool) (s : St) (v1 v2 : Val) (s' : St) (v : Val),
      idm fuel ma s v1 v2 = some (s', v) → Inv H0 s →
      valOK H0.length v1 → valOK H0.length v2 → Inv H0 s' := by
  intro fuel
  induction fuel with
  | zero =>
    intro ma s v1 v2 s' v h
    exact Option.noConfusion h
  | succ f ih =>
    intro ma s v1 v2 s' v h hs hv1 hv2
    by_cases he : v1 = v2
    · rw [he, idm_same] at h
      injection h with h
      injection h with h1 h2
      subst h1
      exact hs
    · cases v2 with
      | prim p =>
        rw [idm_prim_src] at h
        injection h with h
        injection h with h1 h2
        subst h1
        exact hs
      | ref b =>
        have hbN : b < H0.length := hv2
        cases v1 with
        | prim p =>
          cases hc : findClone s.clones b with
          | some c =>
            rw [idm_clone_hit f ma s p b c hc] at h
            injection h with h
            injection h with h1 h2
            subst h1
            exact hs
          | none =>
            cases hb : getNode s b with
            | none =>
              rw [idm_clone_miss f ma s p b hc hb] at h
              injection h with h
              injection h with h1 h2
              subst h1
              exact hs
            | some nd =>
              have hb0 : H0.get? b = some nd := by
                rw [← hs.getNode_input hbN]; exact hb
              cases nd with
              | arr es =>
                rw [idm_clone_arr f ma s p b es hc hb] at h
                simp only [cloneSeq] at h
                split at h
                · exact Option.noConfusion h
                next s3 heq =>
                  injection h with h
                  injection h with h1 h2
                  subst h1
                  have hes : ∀ y ∈ es, valOK H0.length y := wf_node hwf hb0
                  refine pushElems_inv es _ _ ?_ heq
                    (inv_register_clone hs hbN hb0 rfl hc (Node.arr []))
                    (le_trans hs.len_le (by simp))
                  intro t y hy t' w hh ht
                  exact ih ma t _ y t' w hh ht trivial (hes y hy)
              | obj fs =>
                rw [idm_clone_obj f ma s p b fs hc hb] at h
                simp only [cloneMapNode] at h
                split at h
                · exact Option.noConfusion h
                next s3 heq =>
                  injection h with h
                  injection h with h1 h2
                  subst h1
                  have hes : ∀ kv ∈ fs, valOK H0.length kv.2 := (wf_node hwf hb0).1
                  refine setEntries_inv fs _ _ ?_ heq
                    (inv_register_clone hs hbN hb0 rfl hc (Node.obj []))
                    (le_trans hs.len_le (by simp))
                  intro t kv hkv t' w hh ht
                  exact ih ma t _ kv.2 t' w hh ht trivial (hes kv hkv)
              | opaq tg =>
                rw [idm_clone_opaq f ma s p b tg hc hb] at h
                injection h with h
                injection h with h1 h2
                subst h1
                exact hs
        | ref a =>
          have haN : a < H0.length := hv1
          have hab : a ≠ b := fun hh => he (by rw [hh])
          cases hp : findPair s.pairs a b with
          | some q =>
            rw [idm_pair_hit f ma s a b q hab hp] at h
            injection h with h
            injection h with h1 h2
            subst h1
            exact hs
          | none =>
            cases hb : getNode s b with
            | none =>
              rw [idm_src_miss f ma s a b hab hp hb] at h
              injection h with h
              injection h with h1 h2
              subst h1
              exact hs
            | some nd =>
              have hb0 : H0.get? b = some nd := by
                rw [← hs.getNode_input hbN]; exact hb
              cases nd with
              | arr ys =>
                have hys : ∀ y ∈ ys, valOK H0.length y := wf_node hwf hb0
                have hstep : ∀ (zs : List Val), (∀ y ∈ zs, valOK H0.length y) →
                    ∀ s3, pushElems (fun t x y => idm f ma t x y) s.heap.length
                      ⟨s.heap ++ [Node.arr []], s.clones, (a, b, s.heap.length) :: s.pairs⟩
                      zs = some s3 → Inv H0 s3 := by
                  intro zs hzs s3 heq
                  refine pushElems_inv zs _ _ ?_ heq
                    (inv_register_pair hs haN hbN hb0 rfl hp (Node.arr []))
                    (le_trans hs.len_le (by simp))
                  intro t y hy t' w hh ht
                  exact ih ma t _ y t' w hh ht trivial (hzs y hy)
                cases ha : getNode s a with
                | none =>
                  rw [idm_seq_miss f ma s a b ys hab hp hb ha] at h
                  simp only [pairCloneSeq] at h
                  split at h
                  · exact Option.noConfusion h
                  next s3 heq =>
                    injection h with h
                    injection h with h1 h2
                    subst h1
                    exact hstep ys hys s3 heq
                | some nd1 =>
                  cases nd1 with
                  | arr xs =>
                    rw [idm_seq_seq f ma s a b xs ys hab hp hb ha] at h
                    simp only [mergeSeqs] at h
                    split at h
                    · exact Option.noConfusion h
                    next s3 heq =>
                      injection h with h
                      injection h with h1 h2
                      subst h1
                      have ha0 : H0.get? a = some (.arr xs) := by
                        rw [← hs.getNode_input haN]; exact ha
                      have hxs : ∀ y ∈ xs, valOK H0.length y := wf_node hwf ha0
                      refine hstep (if ma then xs ++ ys else ys) ?_ s3 heq
                      intro y hy
                      by_cases hma : ma
                      · rw [if_pos hma] at hy
                        rcases List.mem_append.mp hy with hy | hy
                        · exact hxs y hy
                        · exact hys y hy
                      · rw [if_neg hma] at hy
                        exact hys y hy
                  | obj fs1 =>
                    rw [idm_seq_obj f ma s a b ys fs1 hab hp hb ha] at h
                    simp only [pairCloneSeq] at h
                    split at h
                    · exact Option.noConfusion h
                    next s3 heq =>
                      injection h with h
                      injection h with h1 h2
                      subst h1
                      exact hstep ys hys s3 heq
                  | opaq tg =>
                    rw [idm_seq_opaq f ma s a b tg ys hab hp hb ha] at h
                    simp only [pairCloneSeq] at h
                    split at h
                    · exact Option.noConfusion h
                    next s3 heq =>
                      injection h with h
                      injection h with h1 h2
                      subst h1
                      exact hstep ys hys s3 heq
              | obj fs2 =>
                have hfs2 : ∀ kv ∈ fs2, valOK H0.length kv.2 := (wf_node hwf hb0).1
                cases ha : getNode s a with
                | none =>
                  rw [idm_obj_miss f ma s a b fs2 hab hp hb ha] at h
                  injection h with h
                  injection h with h1 h2
                  subst h1
                  exact hs
                | some nd1 =>
                  cases nd1 with
                  | arr xs =>
                    rw [idm_obj_arr f ma s a b xs fs2 hab hp hb ha] at h
                    simp only [pairCloneMap] at h
                    split at h
                    · exact Option.noConfusion h
                    next s3 heq =>
                      injection h with h
                      injection h with h1 h2
                      subst h1
                      refine setEntries_inv fs2 _ _ ?_ heq
                        (inv_register_pair hs haN hbN hb0 rfl hp (Node.obj []))
                        (le_trans hs.len_le (by simp))
                      intro t kv hkv t' w hh ht
                      exact ih ma t _ kv.2 t' w hh ht trivial (hfs2 kv hkv)
                  | obj fs1 =>
                    rw [idm_obj_obj f ma s a b fs1 fs2 hab hp hb ha] at h
                    simp only [mergeMaps] at h
                    split at h
                    · exact Option.noConfusion h
                    next s4 heq =>
                      injection h with h
                      injection h with h1 h2
                      subst h1
                      have ha0 : H0.get? a = some (.obj fs1) := by
                        rw [← hs.getNode_input haN]; exact ha
                      have hfs1 : ∀ kv ∈ fs1, valOK H0.length kv.2 := (wf_node hwf ha0).1
                      have hiv : Inv H0 (setNode ⟨s.heap ++ [Node.obj fs1], s.clones,
                          (a, b, s.heap.length) :: s.pairs⟩ s.heap.length
                          (.obj (fixSelf a s.heap.length fs1))) :=
                        inv_setNode (inv_register_pair hs haN hbN hb0 rfl hp (Node.obj fs1))
                          hs.len_le _
                      refine setEntries_inv fs2 _ _ ?_ heq hiv hs.len_le
                      intro t kv hkv t' w hh ht
                      exact ih ma t _ kv.2 t' w hh ht
                        (mergeArg_valOK hfs1 kv.1 kv.2) (hfs2 kv hkv)
                  | opaq tg =>
                    rw [idm_obj_opaq f ma s a b tg fs2 hab hp hb ha] at h
                    injection h with h
                    injection h with h1 h2
                    subst h1
                    exact hs
              | opaq tg =>
                rw [idm_opaq_src f ma s a b tg hab hp hb] at h
                injection h with h
                injection h with h1 h2
                subst h1
                exact hs

/-! Totality: the side tables can hold at most `N + N²` entries, every
branch that recurses first registers a fresh entry, so recursion depth —
and hence the fuel `fuelFor` — is bounded. -/

theorem nodup_lt_length_le {l : List Nat} {N : Nat} (hnd : l.Nodup)
    (hlt : ∀ x ∈ l, x < N) : l.length ≤ N := by
  have h1 : l.toFinset ⊆ Finset.range N := by
    intro x hx
    rw [List.mem_toFinset] at hx
    exact Finset.mem_range.mpr (hlt x hx)
  have h2 := Finset.card_le_card h1
  rwa [List.toFinset_card_of_nodup hnd, Finset.card_range] at h2

theorem nodup_pairs_length_le {l : List (Nat × Nat)} {N : Nat} (hnd : l.Nodup)
    (hlt : ∀ x ∈ l, x.1 < N ∧ x.2 < N) : l.length ≤ N * N := by
  have h1 : l.toFinset ⊆ Finset.range N ×ˢ Finset.range N := by
    intro x hx
    rw [List.mem_toFinset] at hx
    rw [Finset.mem_product]
    exact ⟨Finset.mem_range.mpr (hlt x hx).1, Finset.mem_range.mpr (hlt x hx).2⟩
  have h2 := Finset.card_le_card h1
  rwa [List.toFinset_card_of_nodup hnd, Finset.card_product, Finset.card_range,
    ] at h2

theorem inv_tables_le {H0 : List Node} {s : St} (h : Inv H0 s) :
    s.clones.length + s.pairs.length ≤ H0.length + H0.length * H0.length := by
  have hc : s.clones.length ≤ H0.length := by
    have h1 : (s.clones.map Prod.fst).length ≤ H0.length := by
      refine nodup_lt_length_le h.cnd ?_
      intro x hx
      rw [List.mem_map] at hx
      obtain ⟨p, hp, rfl⟩ := hx
      exact (h.ckeys p hp).1
    simpa using h1
  have hp : s.pairs.length ≤ H0.length * H0.length := by
    have h1 : (s.pairs.map (fun p => (p.1, p.2.1))).length ≤ H0.length * H0.length := by
      refine nodup_pairs_length_le h.pnd ?_
      intro x hx
      rw [List.mem_map] at hx
      obtain ⟨p, hp, rfl⟩ := hx
      exact ⟨(h.pkeys p hp).1, (h.pkeys p hp).2.1⟩
    simpa using h1
  omega

theorem getNode_frame {s s' : St} (h : Extends s s') {o : Nat} (ho : o < s.heap.length) :
    getNode s' o = getNode s o :=
  h.1 o ho

theorem getNode_setNode_self {s : St} {o : Nat} (ho : o < s.heap.length) (n : Node) :
    getNode (setNode s o n) o = some n := by
  simp only [getNode, setNode]
  exact List.get?_set_eq_of_lt n ho

theorem setNode_heap_len (s : St) (o : Nat) (n : Node) :
    (setNode s o n).heap.length = s.heap.length := by
  simp [setNode]

theorem pushElems_total {H0 : List Node} (f : MergeF) {o : Nat} (base : Nat) :
    ∀ (es : List Val) (s : St),
      (∀ t y, y ∈ es → Inv H0 t → base ≤ t.clones.length + t.pairs.length →
        ∃ t' w, f t (.prim .undefined) y = some (t', w) ∧ Inv H0 t' ∧ Extends t t') →
      Inv H0 s → base ≤ s.clones.length + s.pairs.length → H0.length ≤ o →
      o < s.heap.length → (∃ cur, getNode s o = some (.arr cur)) →
      ∃ s', pushElems f o s es = some s' ∧ Inv H0 s' ∧ ExtendsExc o s s' := by
  intro es
  induction es with
  | nil =>
    intro s _ hs _ _ _ _
    exact ⟨s, rfl, hs, extendsExc_refl o s⟩
  | cons e es ih =>
    intro s hf hs hbase ho1 ho2 hcur
    obtain ⟨cur, hcur⟩ := hcur
    obtain ⟨s1, w, hfe, hs1, hext1⟩ := hf s e (by simp) hs hbase
    have hg1 : getNode s1 o = some (.arr cur) := by
      rw [getNode_frame hext1 ho2]; exact hcur
    have hbase1 : base ≤ s1.clones.length + s1.pairs.length := by
      have := extends_clones_le hext1
      omega
    have hlen1 : o < s1.heap.length := lt_of_lt_of_le ho2 hext1.2.1
    obtain ⟨s', hrun, hs', hexc⟩ :=
      ih (setNode s1 o (.arr (cur ++ [w])))
        (fun t y hy ht hb => hf t y (by simp [hy]) ht hb)
        (inv_setNode hs1 ho1 _)
        (by simpa [setNode] using hbase1)
        ho1
        (by rw [setNode_heap_len]; exact hlen1)
        ⟨cur ++ [w], getNode_setNode_self hlen1 _⟩
    refine ⟨s', ?_, hs', ?_⟩
    · simp only [pushElems, hfe, hg1]
      exact hrun
    · exact extendsExc_trans (Extends.toExc hext1)
        (extendsExc_trans (setNode_extendsExc s1 o _) hexc)

theorem setEntries_total {H0 : List Node} (g : St → String → Val → Option (St × Val))
    {o : Nat} (base : Nat) :
    ∀ (entries : List (String × Val)) (s : St),
      (∀ t kv, kv ∈ entries → Inv H0 t → base ≤ t.clones.length + t.pairs.length →
        ∃ t' w, g t kv.1 kv.2 = some (t', w) ∧ Inv H0 t' ∧ Extends t t') →
      Inv H0 s → base ≤ s.clones.length + s.pairs.length → H0.length ≤ o →
      o < s.heap.length → (∃ cur, getNode s o = some (.obj cur)) →
      ∃ s', setEntries g o s entries = some s' ∧ Inv H0 s' ∧ ExtendsExc o s s' := by
  intro entries
  induction entries with
  | nil =>
    intro s _ hs _ _ _ _
    exact ⟨s, rfl, hs, extendsExc_refl o s⟩
  | cons kv entries ih =>
    intro s hg hs hbase ho1 ho2 hcur
    obtain ⟨k, y⟩ := kv
    obtain ⟨cur, hcur⟩ := hcur
    obtain ⟨s1, w, hfe, hs1, hext1⟩ := hg s (k, y) (by simp) hs hbase
    have hg1 : getNode s1 o = some (.obj cur) := by
      rw [getNode_frame hext1 ho2]; exact hcur
    have hbase1 : base ≤ s1.clones.length + s1.pairs.length := by
      have := extends_clones_le hext1
      omega
    have hlen1 : o < s1.heap.length := lt_of_lt_of_le ho2 hext1.2.1
    obtain ⟨s', hrun, hs', hexc⟩ :=
      ih (setNode s1 o (.obj (objSet cur k w)))
        (fun t kv hkv ht hb => hg t kv (by simp [hkv]) ht hb)
        (inv_setNode hs1 ho1 _)
        (by simpa [setNode] using hbase1)
        ho1
        (by rw [setNode_heap_len]; exact hlen1)
        ⟨objSet cur k w, getNode_setNode_self hlen1 _⟩
    refine ⟨s', ?_, hs', ?_⟩
    · simp only [setEntries, hfe, hg1]
      exact hrun
    · exact extendsExc_trans (Extends.toExc hext1)
        (extendsExc_trans (setNode_extendsExc s1 o _) hexc)

theorem idm_total {H0 : List Node} (hwf : WFHeap H0) :
    ∀ (fuel : Nat) (ma : Bool) (s : St) (v1 v2 : Val),
      Inv H0 s → valOK H0.length v1 → valOK H0.length v2 →
      H0.length + H0.length * H0.length < fuel + s.clones.length + s.pairs.length →
      ∃ s' v, idm fuel ma s v1 v2 = some (s', v) ∧ Inv H0 s' ∧ Extends s s' := by
  intro fuel
  induction fuel with
  | zero =>
    intro ma s v1 v2 hs _ _ hfuel
    have := inv_tables_le hs
    omega
  | succ f ih =>
    intro ma s v1 v2 hs hv1 hv2 hfuel
    by_cases he : v1 = v2
    · exact ⟨s, v1, by rw [he]; exact idm_same f ma s v2, hs, extends_refl s⟩
    · cases v2 with
      | prim p =>
        exact ⟨s, .prim p, idm_prim_src f ma s v1 p, hs, extends_refl s⟩
      | ref b =>
        have hbN : b < H0.length := hv2
        cases v1 with
        | prim p =>
          cases hc : findClone s.clones b with
          | some c =>
            exact ⟨s, .ref c, idm_clone_hit f ma s p b c hc, hs, extends_refl s⟩
          | none =>
            cases hb : getNode s b with
            | none =>
              exact ⟨s, .ref b, idm_clone_miss f ma s p b hc hb, hs, extends_refl s⟩
            | some nd =>
              have hb0 : H0.get? b = some nd := by
                rw [← hs.getNode_input hbN]; exact hb
              cases nd with
              | arr es =>
                have hes : ∀ y ∈ es, valOK H0.length y := wf_node hwf hb0
                have hs2 : Inv H0 ⟨s.heap ++ [Node.arr []],
                    (b, s.heap.length) :: s.clones, s.pairs⟩ :=
                  inv_register_clone hs hbN hb0 rfl hc (Node.arr [])
                obtain ⟨s3, hrun3, hs3, hexc⟩ :=
                  pushElems_total (fun t x y => idm f ma t x y)
                    (s.clones.length + s.pairs.length + 1) es _
                    (fun t y hy ht hbt => by
                      obtain ⟨t', w, hh, ht', hext⟩ :=
                        ih ma t (.prim .undefined) y ht trivial (hes y hy) (by omega)
                      exact ⟨t', w, hh, ht', hext⟩)
                    hs2 (by simp only [List.length_cons]; omega) hs.len_le (by simp)
                    ⟨[], by simp [getNode, List.get?_concat_length]⟩
                refine ⟨s3, .ref s.heap.length, ?_, hs3, ?_⟩
                · rw [idm_clone_arr f ma s p b es hc hb]
                  simp only [cloneSeq, hrun3]
                · exact extends_through_exc (extends_append_cons_clone s (Node.arr []) b _)
                    (le_refl _) hexc
              | obj fs =>
                have hes : ∀ kv ∈ fs, valOK H0.length kv.2 := (wf_node hwf hb0).1
                have hs2 : Inv H0 ⟨s.heap ++ [Node.obj []],
                    (b, s.heap.length) :: s.clones, s.pairs⟩ :=
                  inv_register_clone hs hbN hb0 rfl hc (Node.obj [])
                obtain ⟨s3, hrun3, hs3, hexc⟩ :=
                  setEntries_total (fun t x y => idm f ma t (.prim .undefined) y)
                    (s.clones.length + s.pairs.length + 1) fs _
                    (fun t kv hkv ht hbt => by
                      obtain ⟨t', w, hh, ht', hext⟩ :=
                        ih ma t (.prim .undefined) kv.2 ht trivial (hes kv hkv) (by omega)
                      exact ⟨t', w, hh, ht', hext⟩)
                    hs2 (by simp only [List.length_cons]; omega) hs.len_le (by simp)
                    ⟨[], by simp [getNode, List.get?_concat_length]⟩
                refine ⟨s3, .ref s.heap.length, ?_, hs3, ?_⟩
                · rw [idm_clone_obj f ma s p b fs hc hb]
                  simp only [cloneMapNode, hrun3]
                · exact extends_through_exc (extends_append_cons_clone s (Node.obj []) b _)
                    (le_refl _) hexc
              | opaq tg =>
                exact ⟨s, .ref b, idm_clone_opaq f ma s p b tg hc hb, hs, extends_refl s⟩
        | ref a =>
          have haN : a < H0.length := hv1
          have hab : a ≠ b := fun hh => he (by rw [hh])
          cases hp : findPair s.pairs a b with
          | some q =>
            exact ⟨s, .ref q, idm_pair_hit f ma s a b q hab hp, hs, extends_refl s⟩
          | none =>
            cases hb : getNode s b with
            | none =>
              exact ⟨s, .ref b, idm_src_miss f ma s a b hab hp hb, hs, extends_refl s⟩
            | some nd =>
              have hb0 : H0.get? b = some nd := by
                rw [← hs.getNode_input hbN]; exact hb
              cases nd with
              | arr ys =>
                have hys : ∀ y ∈ ys, valOK H0.length y := wf_node hwf hb0
                have hs2 : Inv H0 ⟨s.heap ++ [Node.arr []], s.clones,
                    (a, b, s.heap.length) :: s.pairs⟩ :=
                  inv_register_pair hs haN hbN hb0 rfl hp (Node.arr [])
                have hstep : ∀ (zs : List Val), (∀ y ∈ zs, valOK H0.length y) →
                    ∃ s3, pushElems (fun t x y => idm f ma t x y) s.heap.length
                      ⟨s.heap ++ [Node.arr []], s.clones, (a, b, s.heap.length) :: s.pairs⟩
                      zs = some s3 ∧ Inv H0 s3 ∧
                      ExtendsExc s.heap.length
                        ⟨s.heap ++ [Node.arr []], s.clones, (a, b, s.heap.length) :: s.pairs⟩
                        s3 := by
                  intro zs hzs
                  exact pushElems_total (fun t x y => idm f ma t x y)
                    (s.clones.length + s.pairs.length + 1) zs _
                    (fun t y hy ht hbt => by
                      obtain ⟨t', w, hh, ht', hext⟩ :=
                        ih ma t (.prim .undefined) y ht trivial (hzs y hy) (by omega)
                      exact ⟨t', w, hh, ht', hext⟩)
                    hs2 (by simp only [List.length_cons]; omega) hs.len_le (by simp)
                    ⟨[], by simp [getNode, List.get?_concat_length]⟩
                cases ha : getNode s a with
                | none =>
                  obtain ⟨s3, hrun3, hs3, hexc⟩ := hstep ys hys
                  refine ⟨s3, .ref s.heap.length, ?_, hs3, ?_⟩
                  · rw [idm_seq_miss f ma s a b ys hab hp hb ha]
                    simp only [pairCloneSeq, hrun3]
                  · exact extends_through_exc (extends_append_cons_pair s (Node.arr []) a b _)
                      (le_refl _) hexc
                | some nd1 =>
                  cases nd1 with
                  | arr xs =>
                    have ha0 : H0.get? a = some (.arr xs) := by
                      rw [← hs.getNode_input haN]; exact ha
                    have hxs : ∀ y ∈ xs, valOK H0.length y := wf_node hwf ha0
                    have hboth : ∀ y ∈ (if ma then xs ++ ys else ys), valOK H0.length y := by
                      intro y hy
                      by_cases hma : ma
                      · rw [if_pos hma] at hy
                        rcases List.mem_append.mp hy with hy | hy
                        · exact hxs y hy
                        · exact hys y hy
                      · rw [if_neg hma] at hy
                        exact hys y hy
                    obtain ⟨s3, hrun3, hs3, hexc⟩ := hstep _ hboth
                    refine ⟨s3, .ref s.heap.length, ?_, hs3, ?_⟩
                    · rw [idm_seq_seq f ma s a b xs ys hab hp hb ha]
                      simp only [mergeSeqs, hrun3]
                    · exact extends_through_exc (extends_append_cons_pair s (Node.arr []) a b _)
                        (le_refl _) hexc
                  | obj fs1 =>
                    obtain ⟨s3, hrun3, hs3, hexc⟩ := hstep ys hys
                    refine ⟨s3, .ref s.heap.length, ?_, hs3, ?_⟩
                    · rw [idm_seq_obj f ma s a b ys fs1 hab hp hb ha]
                      simp only [pairCloneSeq, hrun3]
                    · exact extends_through_exc (extends_append_cons_pair s (Node.arr []) a b _)
                        (le_refl _) hexc
                  | opaq tg =>
                    obtain ⟨s3, hrun3, hs3, hexc⟩ := hstep ys hys
                    refine ⟨s3, .ref s.heap.length, ?_, hs3, ?_⟩
                    · rw [idm_seq_opaq f ma s a b tg ys hab hp hb ha]
                      simp only [pairCloneSeq, hrun3]
                    · exact extends_through_exc (extends_append_cons_pair s (Node.arr []) a b _)
                        (le_refl _) hexc
              | obj fs2 =>
                have hfs2 : ∀ kv ∈ fs2, valOK H0.length kv.2 := (wf_node hwf hb0).1
                cases ha : getNode s a with
                | none =>
                  exact ⟨s, .ref b, idm_obj_miss f ma s a b fs2 hab hp hb ha, hs,
                    extends_refl s⟩
                | some nd1 =>
                  cases nd1 with
                  | arr xs =>
                    have hs2 : Inv H0 ⟨s.heap ++ [Node.obj []], s.clones,
                        (a, b, s.heap.length) :: s.pairs⟩ :=
                      inv_register_pair hs haN hbN hb0 rfl hp (Node.obj [])
                    obtain ⟨s3, hrun3, hs3, hexc⟩ :=
                      setEntries_total (fun t x y => idm f ma t (.prim .undefined) y)
                        (s.clones.length + s.pairs.length + 1) fs2 _
                        (fun t kv hkv ht hbt => by
                          obtain ⟨t', w, hh, ht', hext⟩ :=
                            ih ma t (.prim .undefined) kv.2 ht trivial (hfs2 kv hkv) (by omega)
                          exact ⟨t', w, hh, ht', hext⟩)
                        hs2 (by simp only [List.length_cons]; omega) hs.len_le (by simp)
                        ⟨[], by simp [getNode, List.get?_concat_length]⟩
                    refine ⟨s3, .ref s.heap.length, ?_, hs3, ?_⟩
                    · rw [idm_obj_arr f ma s a b xs fs2 hab hp hb ha]
                      simp only [pairCloneMap, hrun3]
                    · exact extends_through_exc
                        (extends_append_cons_pair s (Node.obj []) a b _) (le_refl _) hexc
                  | obj fs1 =>
                    have ha0 : H0.get? a = some (.obj fs1) := by
                      rw [← hs.getNode_input haN]; exact ha
                    have hfs1 : ∀ kv ∈ fs1, valOK H0.length kv.2 := (wf_node hwf ha0).1
                    have hiv : Inv H0 (setNode ⟨s.heap ++ [Node.obj fs1], s.clones,
                        (a, b, s.heap.length) :: s.pairs⟩ s.heap.length
                        (.obj (fixSelf a s.heap.length fs1))) :=
                      inv_setNode (inv_register_pair hs haN hbN hb0 rfl hp (Node.obj fs1))
                        hs.len_le _
                    obtain ⟨s4, hrun4, hs4, hexc⟩ :=
                      setEntries_total (fun t k y => idm f ma t (mergeArg fs1 k y) y)
                        (s.clones.length + s.pairs.length + 1) fs2 _
                        (fun t kv hkv ht hbt => by
                          obtain ⟨t', w, hh, ht', hext⟩ :=
                            ih ma t (mergeArg fs1 kv.1 kv.2) kv.2 ht
                              (mergeArg_valOK hfs1 kv.1 kv.2) (hfs2 kv hkv) (by omega)
                          exact ⟨t', w, hh, ht', hext⟩)
                        hiv (by simp only [setNode, List.length_cons]; omega) hs.len_le
                        (by rw [setNode_heap_len]; simp)
                        ⟨fixSelf a s.heap.length fs1,
                          getNode_setNode_self (by simp) _⟩
                    refine ⟨s4, .ref s.heap.length, ?_, hs4, ?_⟩
                    · rw [idm_obj_obj f ma s a b fs1 fs2 hab hp hb ha]
                      simp only [mergeMaps, hrun4]
                    · refine extends_through_exc ?_ (le_refl _) hexc
                      exact extends_through_exc
                        (extends_append_cons_pair s (Node.obj fs1) a b _)
                        (le_refl _) (setNode_extendsExc _ _ _)
                  | opaq tg =>
                    exact ⟨s, .ref b, idm_obj_opaq f ma s a b tg fs2 hab hp hb ha, hs,
                      extends_refl s⟩
              | opaq tg =>
                exact ⟨s, .ref b, idm_opaq_src f ma s a b tg hab hp hb, hs, extends_refl s⟩

/-! Characterization of the key loop: which value ends up under every key
of the output object. -/

theorem setEntries_char {H0 : List Node} (g : St → String → Val → Option (St × Val))
    {o : Nat} :
    ∀ (entries : List (String × Val)) (s s' : St) (cur : List (String × Val)),
      (∀ t kv, kv ∈ entries → ∀ t' w, g t kv.1 kv.2 = some (t', w) → Inv H0 t →
        Inv H0 t' ∧ Extends t t') →
      setEntries g o s entries = some s' →
      Inv H0 s → H0.length ≤ o → o < s.heap.length →
      getNode s o = some (.obj cur) →
      (keysOf entries).Nodup →
      ∃ F, getNode s' o = some (.obj F) ∧
        keysOf F = keysOf cur ++
          (keysOf entries).filter (fun k => decide (¬ k ∈ keysOf cur)) ∧
        (∀ k, ¬ k ∈ keysOf entries → objFind F k = objFind cur k) ∧
        (∀ kv, kv ∈ entries →
          ∃ t t' w, ExtendsExc o s t ∧ Inv H0 t ∧ g t kv.1 kv.2 = some (t', w) ∧
            objFind F kv.1 = some w) := by
  intro entries
  induction entries with
  | nil =>
    intro s s' cur _ h hs _ _ hcur _
    simp only [setEntries] at h
    injection h with h
    subst h
    exact ⟨cur, hcur, by simp [keysOf], fun k _ => rfl, by simp⟩
  | cons kv rest ih =>
    intro s s' cur hg h hs ho1 ho2 hcur hnd
    obtain ⟨k, y⟩ := kv
    rw [keysOf_cons] at hnd
    have hnd' := List.nodup_cons.mp hnd
    simp only [setEntries] at h
    split at h
    · exact Option.noConfusion h
    next s1 w heq1 =>
      have h1 := hg s (k, y) (by simp) s1 w heq1 hs
      split at h
      next cur1 heq2 =>
        have hcur1 : getNode s1 o = some (.obj cur) := by
          rw [getNode_frame h1.2 ho2]; exact hcur
        rw [hcur1] at heq2
        injection heq2 with heq2
        injection heq2 with heq2
        subst heq2
        have hlen1 : o < s1.heap.length := lt_of_lt_of_le ho2 h1.2.2.1
        obtain ⟨F, hF, hkeys, hun, hper⟩ :=
          ih (setNode s1 o (.obj (objSet cur k w))) s' (objSet cur k w)
            (fun t kv hkv t' w' hh ht => hg t kv (by simp [hkv]) t' w' hh ht)
            h (inv_setNode h1.1 ho1 _) ho1
            (by rw [setNode_heap_len]; exact hlen1)
            (getNode_setNode_self hlen1 _) hnd'.2
        refine ⟨F, hF, ?_, ?_, ?_⟩
        · rw [hkeys, keysOf_cons]
          by_cases hk : k ∈ keysOf cur
          · rw [keysOf_objSet_of_mem cur k w hk]
            simp only [List.filter_cons]
            rw [if_neg (by simp [hk])]
          · rw [keysOf_objSet_of_not_mem cur k w hk]
            simp only [List.filter_cons]
            rw [if_pos (by simp [hk])]
            have hfc : (keysOf rest).filter
                  (fun k' => decide (¬ k' ∈ keysOf cur ++ [k])) =
                (keysOf rest).filter (fun k' => decide (¬ k' ∈ keysOf cur)) := by
              refine List.filter_congr ?_
              intro k' hk'
              have hne : k' ≠ k := fun hh => hnd'.1 (hh ▸ hk')
              simp [List.mem_append, hne]
            rw [hfc, List.append_assoc]
            rfl
        · intro k' hk'
          rw [keysOf_cons] at hk'
          have hne : k' ≠ k := fun hh => hk' (by rw [hh]; simp)
          have hrest : ¬ k' ∈ keysOf rest := fun hh => hk' (by simp [hh])
          rw [hun k' hrest, objFind_objSet_ne cur k k' w hne]
        · intro kv hkv
          rcases List.mem_cons.mp hkv with hkv | hkv
          · subst hkv
            refine ⟨s, s1, w, extendsExc_refl o s, hs, heq1, ?_⟩
            rw [hun k hnd'.1, objFind_objSet_self]
          · obtain ⟨t, t', w', hexc, ht, hgt, hfind⟩ := hper kv hkv
            refine ⟨t, t', w', ?_, ht, hgt, hfind⟩
            exact extendsExc_trans (Extends.toExc h1.2)
              (extendsExc_trans (setNode_extendsExc s1 o _) hexc)
      next => exact Option.noConfusion h

/-! Runs of the element/key loops over purely scalar contents: cloning a
scalar is the identity, so the loops just copy. -/

theorem pushElems_prims (f : Nat) (ma : Bool) (o : Nat) :
    ∀ (es : List Val) (s : St) (cur : List Val),
      (∀ y ∈ es, ∃ p, y = Val.prim p) →
      getNode s o = some (.arr cur) → o < s.heap.length →
      ∃ s', pushElems (fun t x y => idm (f + 1) ma t x y) o s es = some s' ∧
        getNode s' o = some (.arr (cur ++ es)) ∧
        s'.heap.length = s.heap.length ∧
        (∀ i, i ≠ o → s'.heap.get? i = s.heap.get? i) ∧
        s'.clones = s.clones ∧ s'.pairs = s.pairs := by
  intro es
  induction es with
  | nil =>
    intro s cur _ hcur _
    exact ⟨s, rfl, by simpa using hcur, rfl, fun _ _ => rfl, rfl, rfl⟩
  | cons e es ih =>
    intro s cur hprim hcur ho
    obtain ⟨p, rfl⟩ := hprim e (by simp)
    have hrun : idm (f + 1) ma s (.prim .undefined) (.prim p) = some (s, .prim p) :=
      idm_prim_src f ma s _ p
    obtain ⟨s', hrun', hcur', hlen', hframe', hc', hp'⟩ :=
      ih (setNode s o (.arr (cur ++ [Val.prim p]))) (cur ++ [Val.prim p])
        (fun y hy => hprim y (by simp [hy]))
        (getNode_setNode_self ho _)
        (by rw [setNode_heap_len]; exact ho)
    refine ⟨s', ?_, ?_, ?_, ?_, ?_, ?_⟩
    · simp only [pushElems, hrun, hcur]
      exact hrun'
    · rw [hcur', List.append_assoc]
      rfl
    · rw [hlen', setNode_heap_len]
    · intro i hi
      rw [hframe' i hi]
      simp only [setNode]
      exact List.get?_set_ne _ _ (fun hh => hi hh.symm)
    · exact hc'
    · exact hp'

theorem setEntries_prims (f : Nat) (ma : Bool) (o : Nat) :
    ∀ (entries : List (String × Val)) (s : St) (cur : List (String × Val)),
      (∀ kv ∈ entries, ∃ p, kv.2 = Val.prim p) →
      getNode s o = some (.obj cur) → o < s.heap.length →
      ∃ s', setEntries (fun t x y => idm (f + 1) ma t (.prim .undefined) y) o s entries =
          some s' ∧
        getNode s' o = some (.obj
          (List.foldl (fun acc kv => objSet acc kv.1 kv.2) cur entries)) ∧
        s'.heap.length = s.heap.length ∧
        (∀ i, i ≠ o → s'.heap.get? i = s.heap.get? i) ∧
        s'.clones = s.clones ∧ s'.pairs = s.pairs := by
  intro entries
  induction entries with
  | nil =>
    intro s cur _ hcur _
    exact ⟨s, rfl, by simpa using hcur, rfl, fun _ _ => rfl, rfl, rfl⟩
  | cons kv rest ih =>
    intro s cur hprim hcur ho
    obtain ⟨k, y⟩ := kv
    obtain ⟨p, hp⟩ := hprim (k, y) (by simp)
    simp only at hp
    subst hp
    have hrun : idm (f + 1) ma s (.prim .undefined) (.prim p) = some (s, .prim p) :=
      idm_prim_src f ma s _ p
    obtain ⟨s', hrun', hcur', hlen', hframe', hc', hp'⟩ :=
      ih (setNode s o (.obj (objSet cur k (Val.prim p)))) (objSet cur k (Val.prim p))
        (fun kv hkv => hprim kv (by simp [hkv]))
        (getNode_setNode_self ho _)
        (by rw [setNode_heap_len]; exact ho)
    refine ⟨s', ?_, ?_, ?_, ?_, ?_, ?_⟩
    · simp only [setEntries, hrun, hcur]
      exact hrun'
    · exact hcur'
    · rw [hlen', setNode_heap_len]
    · intro i hi
      rw [hframe' i hi]
      simp only [setNode]
      exact List.get?_set_ne _ _ (fun hh => hi hh.symm)
    · exact hc'
    · exact hp'

theorem objSet_append_fresh (cur : List (String × Val)) (k : String) (v : Val)
    (h : ¬ k ∈ keysOf cur) : objSet cur k v = cur ++ [(k, v)] := by
  induction cur with
  | nil => rfl
  | cons kv rest ih =>
    obtain ⟨k₀, v₀⟩ := kv
    rw [keysOf_cons] at h
    have h0 : k₀ ≠ k := fun hh => h (by rw [hh]; simp)
    have hr : ¬ k ∈ keysOf rest := fun hh => h (by simp [hh])
    simp [objSet, h0, ih hr]

theorem foldl_objSet_fresh :
    ∀ (entries cur : List (String × Val)),
      (∀ k ∈ keysOf entries, ¬ k ∈ keysOf cur) → (keysOf entries).Nodup →
      List.foldl (fun acc kv => objSet acc kv.1 kv.2) cur entries = cur ++ entries := by
  intro entries
  induction entries with
  | nil => intro cur _ _; simp
  | cons kv rest ih =>
    intro cur hfresh hnd
    obtain ⟨k, y⟩ := kv
    rw [keysOf_cons] at hfresh hnd
    have hnd' := List.nodup_cons.mp hnd
    have hk : ¬ k ∈ keysOf cur := hfresh k (by simp)
    have hstep : List.foldl (fun acc kv => objSet acc kv.1 kv.2) cur ((k, y) :: rest) =
        List.foldl (fun acc kv => objSet acc kv.1 kv.2) (objSet cur k y) rest := rfl
    rw [hstep, objSet_append_fresh cur k y hk]
    rw [ih (cur ++ [(k, y)]) ?_ hnd'.2, List.append_assoc]
    · rfl
    · intro k' hk'
      have hne : k' ≠ k := fun hh => hnd'.1 (hh ▸ hk')
      have hcur' : ¬ k' ∈ keysOf cur := hfresh k' (by simp [hk'])
      simp only [keysOf, List.map_append, List.mem_append]
      intro hmem
      rcases hmem with hmem | hmem
      · exact hcur' hmem
      · simp at hmem
        exact hne hmem

/-- When the source value at a position is a scalar or an opaque node, the
recursive merge returns it unchanged (scalars by value, opaque objects by
the very same reference), whatever the target side holds. -/
theorem idm_atomic_src {H0 : List Node} :
    ∀ (fuel : Nat) (ma : Bool) (t : St) (x bv : Val) (t' : St) (w : Val),
      Inv H0 t →
      ((∃ p, bv = .prim p) ∨
        (∃ c tg, bv = .ref c ∧ c < H0.length ∧ H0.get? c = some (.opaq tg))) →
      idm fuel ma t x bv = some (t', w) → w = bv := by
  intro fuel ma t x bv t' w ht hb h
  cases fuel with
  | zero => exact Option.noConfusion h
  | succ f =>
    rcases hb with ⟨p, rfl⟩ | ⟨c, tg, rfl, hcN, hc0⟩
    · rw [idm_prim_src] at h
      injection h with h
      injection h with h1 h2
      exact h2.symm
    · by_cases he : x = .ref c
      · rw [he, idm_same] at h
        injection h with h
        injection h with h1 h2
        exact h2.symm
      · have hgc : getNode t c = some (.opaq tg) := by
          rw [ht.getNode_input hcN]; exact hc0
        cases x with
        | prim p =>
          cases hfc : findClone t.clones c with
          | some d =>
            exfalso
            obtain ⟨-, n, hn, hstr⟩ := ht.ckeys (c, d) (findClone_mem hfc)
            rw [hc0] at hn
            injection hn with hn
            rw [← hn] at hstr
            simp [structuredN] at hstr
          | none =>
            rw [idm_clone_opaq f ma t p c tg hfc hgc] at h
            injection h with h
            injection h with h1 h2
            exact h2.symm
        | ref a' =>
          have hab : a' ≠ c := fun hh => he (by rw [hh])
          cases hfp : findPair t.pairs a' c with
          | some d =>
            exfalso
            obtain ⟨-, -, n, hn, hstr⟩ := ht.pkeys (a', c, d) (findPair_mem hfp)
            rw [hc0] at hn
            injection hn with hn
            rw [← hn] at hstr
            simp [structuredN] at hstr
          | none =>
            rw [idm_opaq_src f ma t a' c tg hab hfp hgc] at h
            injection h with h
            injection h with h1 h2
            exact h2.symm

theorem getNode_lt {s : St} {a : Nat} {n : Node} (h : getNode s a = some n) :
    a < s.heap.length :=
  (List.get?_eq_some.mp h).1

/-- Full characterization of the plain-object/plain-object merge: the
output is a fresh object whose keys are the target's keys followed by the
source-only keys; keys the source does not touch keep the (self-reference
fixed-up) shallow copy of the target's value; every source key holds the
result of the recursive call selected by `mergeArg`. -/
theorem mergeMaps_char {H0 : List Node} (hwf : WFHeap H0) (fuel : Nat) (ma : Bool)
    (s : St) (a b : Nat) (fs1 fs2 : List (String × Val)) (hinv : Inv H0 s)
    (haN : a < H0.length) (hbN : b < H0.length)
    (ha0 : H0.get? a = some (.obj fs1)) (hb0 : H0.get? b = some (.obj fs2))
    (hab : a ≠ b) (hmiss : findPair s.pairs a b = none) (sF : St) (vout : Val)
    (hrun : idm (fuel + 1) ma s (.ref a) (.ref b) = some (sF, vout)) :
    vout = .ref s.heap.length ∧
    ∃ F, getNode sF s.heap.length = some (.obj F) ∧
      keysOf F = keysOf fs1 ++
        (keysOf fs2).filter (fun k => decide (¬ k ∈ keysOf fs1)) ∧
      (∀ k, ¬ k ∈ keysOf fs2 →
        objFind F k = objFind (fixSelf a s.heap.length fs1) k) ∧
      (∀ kv, kv ∈ fs2 →
        ∃ t t' w, ExtendsExc s.heap.length s t ∧ Inv H0 t ∧
          idm fuel ma t (mergeArg fs1 kv.1 kv.2) kv.2 = some (t', w) ∧
          objFind F kv.1 = some w) := by
  have ha : getNode s a = some (.obj fs1) := by
    rw [hinv.getNode_input haN]; exact ha0
  have hb : getNode s b = some (.obj fs2) := by
    rw [hinv.getNode_input hbN]; exact hb0
  rw [idm_obj_obj fuel ma s a b fs1 fs2 hab hmiss hb ha] at hrun
  simp only [mergeMaps] at hrun
  split at hrun
  · exact Option.noConfusion hrun
  next s4 heq =>
    injection hrun with hrun
    injection hrun with h1 h2
    subst h1
    refine ⟨h2.symm, ?_⟩
    have hfs1 := wf_node hwf ha0
    have hfs2 := wf_node hwf hb0
    have hinv3 : Inv H0 (setNode ⟨s.heap ++ [Node.obj fs1], s.clones,
        (a, b, s.heap.length) :: s.pairs⟩ s.heap.length
        (.obj (fixSelf a s.heap.length fs1))) :=
      inv_setNode (inv_register_pair hinv haN hbN hb0 rfl hmiss (Node.obj fs1))
        hinv.len_le _
    obtain ⟨F, hF, hkeys, hun, hper⟩ :=
      setEntries_char (fun t k y => idm fuel ma t (mergeArg fs1 k y) y) fs2 _ s4
        (fixSelf a s.heap.length fs1)
        (fun t kv hkv t' w hh ht =>
          ⟨idm_inv hwf fuel ma t _ kv.2 t' w hh ht (mergeArg_valOK hfs1.1 kv.1 kv.2)
            (hfs2.1 kv hkv), idm_extends fuel ma t _ kv.2 t' w hh⟩)
        heq hinv3 hinv.len_le
        (by rw [setNode_heap_len]; simp)
        (getNode_setNode_self (by simp) _)
        hfs2.2
    refine ⟨F, hF, ?_, hun, ?_⟩
    · rw [hkeys]
      simp only [keysOf_fixSelf]
    · intro kv hkv
      obtain ⟨t, t', w, hexc, ht, hgt, hfind⟩ := hper kv hkv
      refine ⟨t, t', w, ?_, ht, hgt, hfind⟩
      refine extendsExc_trans ?_ hexc
      exact extendsExc_trans
        (Extends.toExc (extends_append_cons_pair s (Node.obj fs1) a b _))
        (setNode_extendsExc _ _ _)

/-- C1 (amended): in a plain-object/plain-object merge the output is a
fresh object; every source key `k` holds the result of the recursive call
on `mergeArg fs1 k` — the target's value when `k` is own on the target and
both values are structured (the recursive merge), `undefined` otherwise
(the clone of the source value); keys present only on the target keep
their target value, except that a value equal to the target object itself
is rewritten to reference the output object (self-reference fix-up). -/
theorem claim1_theorem :
    (∀ {H0 : List Node}, WFHeap H0 → ∀ (fuel : Nat) (ma : Bool)
      (s : St) (a b : Nat) (fs1 fs2 : List (String × Val)), Inv H0 s →
      a < H0.length → b < H0.length →
      H0.get? a = some (.obj fs1) → H0.get? b = some (.obj fs2) →
      a ≠ b → findPair s.pairs a b = none → ∀ (sF : St) (vout : Val),
      idm (fuel + 1) ma s (.ref a) (.ref b) = some (sF, vout) →
      vout = .ref s.heap.length ∧
      ∃ F, getNode sF s.heap.length = some (.obj F) ∧
        (∀ kv, kv ∈ fs2 →
          ∃ t t' w, ExtendsExc s.heap.length s t ∧ Inv H0 t ∧
            idm fuel ma t (mergeArg fs1 kv.1 kv.2) kv.2 = some (t', w) ∧
            objFind F kv.1 = some w) ∧
        (∀ kv, kv ∈ fs1 → ¬ kv.1 ∈ keysOf fs2 →
          objFind F kv.1 =
            some (if kv.2 = Val.ref a then Val.ref s.heap.length else kv.2))) ∧
    pathNode (deepMerge false heapUnion (.ref 0) (.ref 2)) [] =
      some (.obj [("a", .prim (.num 1)), ("b", .ref 5), ("e", .prim (.num 4))]) ∧
    pathNode (deepMerge false heapUnion (.ref 0) (.ref 2)) ["b"] =
      some (.obj [("c", .prim (.num 10)), ("d", .prim (.num 3))]) := by
  refine ⟨?_, by decide, by decide⟩
  intro H0 hwf fuel ma s a b fs1 fs2 hinv haN hbN ha0 hb0 hab hmiss sF vout hrun
  obtain ⟨hv, F, hF, hkeys, hun, hper⟩ :=
    mergeMaps_char hwf fuel ma s a b fs1 fs2 hinv haN hbN ha0 hb0 hab hmiss
      sF vout hrun
  refine ⟨hv, F, hF, hper, ?_⟩
  intro kv hkv hnot
  have hfind : objFind fs1 kv.1 = some kv.2 :=
    mem_objFind (wf_node hwf ha0).2 (by rw [Prod.mk.eta]; exact hkv)
  rw [hun kv.1 hnot, objFind_fixSelf, hfind]
  rfl

/-- C1 (counterexample to the claim as stated): for the target with
`t.self = t` and the source owning only `b`, the key `self` is present only
on the target, yet the output's value at `self` is the output object
(address 2), not the target's value (address 0) — target-only keys do not
always literally keep their target value. -/
theorem claim1_counterexample :
    heapSelfRef.get? 0 = some (.obj [("self", .ref 0)]) ∧
    pathVal (deepMerge false heapSelfRef (.ref 0) (.ref 1)) ["self"] =
      some (.ref 2) ∧
    ¬ pathVal (deepMerge false heapSelfRef (.ref 0) (.ref 1)) ["self"] =
      some (.ref 0) :=
  ⟨rfl, by decide, by decide⟩

/-- C1 (witness): the amended statement instantiated on the two disjoint
single-key objects of `heapW1`. -/
theorem claim1_witness :
    WFHeap heapW1 ∧
    (Val.ref 2 = Val.ref (initSt heapW1).heap.length ∧
      ∃ F, getNode stW1 (initSt heapW1).heap.length = some (.obj F) ∧
        (∀ kv, kv ∈ [("y", Val.prim (.num 2))] →
          ∃ t t' w, ExtendsExc (initSt heapW1).heap.length (initSt heapW1) t ∧
            Inv heapW1 t ∧
            idm 4 false t (mergeArg [("x", Val.prim (.num 1))] kv.1 kv.2) kv.2 =
              some (t', w) ∧
            objFind F kv.1 = some w) ∧
        (∀ kv, kv ∈ [("x", Val.prim (.num 1))] →
          ¬ kv.1 ∈ keysOf [("y", Val.prim (.num 2))] →
          objFind F kv.1 =
            some (if kv.2 = Val.ref 0 then Val.ref (initSt heapW1).heap.length
              else kv.2))) :=
  ⟨by decide, claim1_theorem.1 (by decide) 4 false (initSt heapW1) 0 1
    [("x", Val.prim (.num 1))] [("y", Val.prim (.num 2))] (inv_init heapW1)
    (by decide) (by decide) (by decide) (by decide) (by decide) rfl stW1 (.ref 2)
    (by decide)⟩

/-- C2 (amended): a direct self-reference of the target is preserved — if
the target object `a` holds `a` itself at key `k`, and the source does not
own `k`, the output object holds a reference to itself at `k` (this is the
self-reference fix-up); the concrete case of the spec is the witness.
Transitive self-containment is not generally mirrored, see the
counterexample. -/
theorem claim2_theorem {H0 : List Node} (hwf : WFHeap H0) (fuel : Nat) (ma : Bool)
    (s : St) (a b : Nat) (fs1 fs2 : List (String × Val)) (hinv : Inv H0 s)
    (haN : a < H0.length) (hbN : b < H0.length)
    (ha0 : H0.get? a = some (.obj fs1)) (hb0 : H0.get? b = some (.obj fs2))
    (hab : a ≠ b) (hmiss : findPair s.pairs a b = none)
    (k : String) (hk : (k, Val.ref a) ∈ fs1) (hknot : ¬ k ∈ keysOf fs2)
    (sF : St) (vout : Val)
    (hrun : idm (fuel + 1) ma s (.ref a) (.ref b) = some (sF, vout)) :
    vout = .ref s.heap.length ∧
    ∃ F, getNode sF s.heap.length = some (.obj F) ∧
      objFind F k = some (.ref s.heap.length) := by
  obtain ⟨hv, F, hF, hkeys, hun, hper⟩ :=
    mergeMaps_char hwf fuel ma s a b fs1 fs2 hinv haN hbN ha0 hb0 hab hmiss
      sF vout hrun
  refine ⟨hv, F, hF, ?_⟩
  have hfind : objFind fs1 k = some (.ref a) := mem_objFind (wf_node hwf ha0).2 hk
  rw [hun k hknot, objFind_fixSelf, hfind]
  simp

/-- C2 (counterexample to the claim as stated): the target node 0 of
`heapTransCycle` contains itself transitively (through node 1), nothing in
the source removes that relationship, the merge terminates normally
(`b` is copied), yet the output node 3 does not contain itself: it still
references the original input cycle instead. -/
theorem claim2_counterexample :
    containsSelf heapTransCycle 0 = true ∧
    resultVal (deepMerge false heapTransCycle (.ref 0) (.ref 2)) =
      some (.ref 3) ∧
    pathVal (deepMerge false heapTransCycle (.ref 0) (.ref 2)) ["b"] =
      some (.prim (.num 2)) ∧
    containsSelf (resultHeap (deepMerge false heapTransCycle (.ref 0) (.ref 2))) 3 =
      false :=
  ⟨by decide, by decide, by decide, by decide⟩

/-- C2 (witness): the concrete case of the spec — `t.self = t`, source
owning only `b = 2`: the merge terminates and the output holds a reference
to itself under `self`. -/
theorem claim2_witness :
    WFHeap heapSelfRef ∧
    (Val.ref 2 = Val.ref (initSt heapSelfRef).heap.length ∧
      ∃ F, getNode stSelfMerge (initSt heapSelfRef).heap.length = some (.obj F) ∧
        objFind F "self" = some (.ref (initSt heapSelfRef).heap.length)) :=
  ⟨by decide, claim2_theorem (by decide) 4 false (initSt heapSelfRef) 0 1
    [("self", Val.ref 0)] [("b", Val.prim (.num 2))] (inv_init heapSelfRef)
    (by decide) (by decide) (by decide) (by decide) (by decide) rfl "self"
    (by decide) (by decide) stSelfMerge (.ref 2) (by decide)⟩

/-- C7: a scalar or opaque source value at a key of the source always wins:
the output binds that key to exactly the source value — by value for
scalars, by reference (the same heap address) for opaque nodes — no matter
what the target holds there. -/
theorem claim7_theorem {H0 : List Node} (hwf : WFHeap H0) (fuel : Nat) (ma : Bool)
    (s : St) (a b : Nat) (fs1 fs2 : List (String × Val)) (hinv : Inv H0 s)
    (haN : a < H0.length) (hbN : b < H0.length)
    (ha0 : H0.get? a = some (.obj fs1)) (hb0 : H0.get? b = some (.obj fs2))
    (hab : a ≠ b) (hmiss : findPair s.pairs a b = none)
    (kv : String × Val) (hkv : kv ∈ fs2)
    (hatomic : (∃ p, kv.2 = Val.prim p) ∨
      (∃ c tg, kv.2 = Val.ref c ∧ c < H0.length ∧ H0.get? c = some (.opaq tg)))
    (sF : St) (vout : Val)
    (hrun : idm (fuel + 1) ma s (.ref a) (.ref b) = some (sF, vout)) :
    vout = .ref s.heap.length ∧
    ∃ F, getNode sF s.heap.length = some (.obj F) ∧ objFind F kv.1 = some kv.2 := by
  obtain ⟨hv, F, hF, hkeys, hun, hper⟩ :=
    mergeMaps_char hwf fuel ma s a b fs1 fs2 hinv haN hbN ha0 hb0 hab hmiss
      sF vout hrun
  obtain ⟨t, t', w, hexc, ht, hgt, hfind⟩ := hper kv hkv
  have hw : w = kv.2 := idm_atomic_src fuel ma t _ _ t' w ht hatomic hgt
  refine ⟨hv, F, hF, ?_⟩
  rw [hfind, hw]

/-- C7 (witness): two opaque leaves (dates) under the shared key `d`: the
output holds the source's opaque node by reference (`Val.ref 1`). -/
theorem claim7_witness :
    WFHeap heapOpaque ∧
    (Val.ref 4 = Val.ref (initSt heapOpaque).heap.length ∧
      ∃ F, getNode stOpaqueMerge (initSt heapOpaque).heap.length = some (.obj F) ∧
        objFind F "d" = some (Val.ref 1)) :=
  ⟨by decide, claim7_theorem (by decide) 4 false (initSt heapOpaque) 2 3
    [("d", Val.ref 0)] [("d", Val.ref 1)] (inv_init heapOpaque)
    (by decide) (by decide) (by decide) (by decide) (by decide) rfl
    ("d", Val.ref 1) (by decide) (Or.inr ⟨1, 200, rfl, by decide, by decide⟩)
    stOpaqueMerge (.ref 4) (by decide)⟩

/-- C8: key order of the plain-object merge output — the target's own keys
first, in the target's order, then the source-only keys appended in the
source's order; an overwritten shared key keeps its slot from the initial
copy of the target (it is filtered out of the appended tail, never
re-appended). -/
theorem claim8_theorem {H0 : List Node} (hwf : WFHeap H0) (fuel : Nat) (ma : Bool)
    (s : St) (a b : Nat) (fs1 fs2 : List (String × Val)) (hinv : Inv H0 s)
    (haN : a < H0.length) (hbN : b < H0.length)
    (ha0 : H0.get? a = some (.obj fs1)) (hb0 : H0.get? b = some (.obj fs2))
    (hab : a ≠ b) (hmiss : findPair s.pairs a b = none) (sF : St) (vout : Val)
    (hrun : idm (fuel + 1) ma s (.ref a) (.ref b) = some (sF, vout)) :
    vout = .ref s.heap.length ∧
    ∃ F, getNode sF s.heap.length = some (.obj F) ∧
      keysOf F = keysOf fs1 ++
        (keysOf fs2).filter (fun k => decide (¬ k ∈ keysOf fs1)) := by
  obtain ⟨hv, F, hF, hkeys, -, -⟩ :=
    mergeMaps_char hwf fuel ma s a b fs1 fs2 hinv haN hbN ha0 hb0 hab hmiss
      sF vout hrun
  exact ⟨hv, F, hF, hkeys⟩

/-- C8 (witness): instantiated on `heapW1`: the output keys are
`x` (target's) followed by `y` (source-only). -/
theorem claim8_witness :
    WFHeap heapW1 ∧
    (Val.ref 2 = Val.ref (initSt heapW1).heap.length ∧
      ∃ F, getNode stW1 (initSt heapW1).heap.length = some (.obj F) ∧
        keysOf F = keysOf [("x", Val.prim (.num 1))] ++
          (keysOf [("y", Val.prim (.num 2))]).filter
            (fun k => decide (¬ k ∈ keysOf [("x", Val.prim (.num 1))]))) :=
  ⟨by decide, claim8_theorem (by decide) 4 false (initSt heapW1) 0 1
    [("x", Val.prim (.num 1))] [("y", Val.prim (.num 2))] (inv_init heapW1)
    (by decide) (by decide) (by decide) (by decide) (by decide) rfl stW1 (.ref 2)
    (by decide)⟩

/-- C10: a source key holding `undefined` always becomes an own key of the
output bound to `undefined`, overwriting the target's value at that key
even when that value is a structured object or array (the recursive branch
is skipped because `undefined` is not an object). -/
theorem claim10_theorem {H0 : List Node} (hwf : WFHeap H0) (fuel : Nat) (ma : Bool)
    (s : St) (a b : Nat) (fs1 fs2 : List (String × Val)) (hinv : Inv H0 s)
    (haN : a < H0.length) (hbN : b < H0.length)
    (ha0 : H0.get? a = some (.obj fs1)) (hb0 : H0.get? b = some (.obj fs2))
    (hab : a ≠ b) (hmiss : findPair s.pairs a b = none)
    (k : String) (hk : (k, Val.prim .undefined) ∈ fs2) (sF : St) (vout : Val)
    (hrun : idm (fuel + 1) ma s (.ref a) (.ref b) = some (sF, vout)) :
    vout = .ref s.heap.length ∧
    ∃ F, getNode sF s.heap.length = some (.obj F) ∧
      objFind F k = some (.prim .undefined) := by
  obtain ⟨hv, F, hF, hkeys, hun, hper⟩ :=
    mergeMaps_char hwf fuel ma s a b fs1 fs2 hinv haN hbN ha0 hb0 hab hmiss
      sF vout hrun
  obtain ⟨t, t', w, hexc, ht, hgt, hfind⟩ := hper (k, .prim .undefined) hk
  have hw : w = Val.prim .undefined :=
    idm_atomic_src fuel ma t _ _ t' w ht (Or.inl ⟨.undefined, rfl⟩) hgt
  refine ⟨hv, F, hF, ?_⟩
  rw [hfind, hw]

/-- C10 (witness): the target holds a structured object under `k`, the
source holds `undefined` under `k`: the output's `k` is `undefined`. -/
theorem claim10_witness :
    WFHeap heapUndef ∧
    (Val.ref 3 = Val.ref (initSt heapUndef).heap.length ∧
      ∃ F, getNode stUndefMerge (initSt heapUndef).heap.length = some (.obj F) ∧
        objFind F "k" = some (.prim .undefined)) :=
  ⟨by decide, claim10_theorem (by decide) 4 false (initSt heapUndef) 0 2
    [("k", Val.ref 1)] [("k", Val.prim .undefined)] (inv_init heapUndef)
    (by decide) (by decide) (by decide) (by decide) (by decide) rfl "k"
    (by decide) stUndefMerge (.ref 3) (by decide)⟩

theorem prim_of_not_object {v : Val} (h : isObject v = false) : ∃ p, v = Val.prim p := by
  cases v with
  | prim p => exact ⟨p, rfl⟩
  | ref a => simp [isObject] at h

/-- C3: the merge is total — for every well-formed heap and every pair of
roots (including cyclic and mutually referential graphs), `deepMerge`
returns a result: the fuel computed by the wrapper always suffices. -/
theorem claim3_theorem (ma : Bool) (H : List Node) (t s : Val)
    (hwf : WFHeap H) (ht : valOK H.length t) (hs : valOK H.length s) :
    ∃ sF v, deepMerge ma H t s = some (sF, v) := by
  have hfuel : H.length + H.length * H.length <
      fuelFor H + (initSt H).clones.length + (initSt H).pairs.length := by
    simp [initSt, fuelFor]
  by_cases h1 : isObject t
  · by_cases h2 : isObject s
    · obtain ⟨s', v, hrun, -, -⟩ :=
        idm_total hwf (fuelFor H) ma (initSt H) t s (inv_init H) ht hs hfuel
      refine ⟨s', v, ?_⟩
      simp [deepMerge, h1, h2]
      exact hrun
    · obtain ⟨s', v, hrun, -, -⟩ :=
        idm_total hwf (fuelFor H) ma (initSt H) (.prim .undefined) t (inv_init H)
          trivial ht hfuel
      refine ⟨s', v, ?_⟩
      simp at h2
      simp [deepMerge, h1, h2]
      exact hrun
  · simp at h1
    by_cases h2 : isObject s
    · obtain ⟨s', v, hrun, -, -⟩ :=
        idm_total hwf (fuelFor H) ma (initSt H) (.prim .undefined) s (inv_init H)
          trivial hs hfuel
      refine ⟨s', v, ?_⟩
      simp [deepMerge, h1, h2]
      exact hrun
    · simp at h2
      refine ⟨⟨H ++ [Node.obj []], [], []⟩, .ref H.length, ?_⟩
      simp [deepMerge, h1, h2]

/-- C3 (witness): a mutually referential pair of roots merges to a
result. -/
theorem claim3_witness :
    WFHeap heapMutual ∧
    ∃ sF v, deepMerge false heapMutual (.ref 0) (.ref 1) = some (sF, v) :=
  ⟨by decide, claim3_theorem false heapMutual (.ref 0) (.ref 1) (by decide)
    (by decide) (by decide)⟩

/-- C4 (amended): whenever both sides of a merge position are structured
nodes not already merged as a pair, the output root node is a fresh
allocation — its address is the current heap size, hence distinct from
every node of the target and the source and from every output node
produced so far. (Values of target-only keys, however, are copied by
reference, so nested nodes of the target can be reachable from the result;
see the counterexample.) -/
theorem claim4_theorem (fuel : Nat) (ma : Bool) (s : St) (a b : Nat) (na nb : Node)
    (hab : a ≠ b) (hmiss : findPair s.pairs a b = none)
    (ha : getNode s a = some na) (hb : getNode s b = some nb)
    (hsa : structuredN na = true) (hsb : structuredN nb = true)
    (sF : St) (vout : Val)
    (hrun : idm (fuel + 1) ma s (.ref a) (.ref b) = some (sF, vout)) :
    vout = Val.ref s.heap.length ∧ s.heap.length < sF.heap.length := by
  have hf : ∀ t x y t' w, idm fuel ma t x y = some (t', w) → Extends t t' :=
    fun t x y t' w hh => idm_extends fuel ma t x y t' w hh
  cases nb with
  | opaq tg => simp [structuredN] at hsb
  | arr ys =>
    cases na with
    | opaq tg => simp [structuredN] at hsa
    | arr xs =>
      rw [idm_seq_seq fuel ma s a b xs ys hab hmiss hb ha] at hrun
      simp only [mergeSeqs] at hrun
      split at hrun
      · exact Option.noConfusion hrun
      next s3 heq =>
        injection hrun with hrun
        injection hrun with h1 h2
        subst h1
        refine ⟨h2.symm, ?_⟩
        have hlen := (pushElems_extendsExc hf _ _ _ heq).2.1
        simp at hlen
        omega
    | obj fs1 =>
      rw [idm_seq_obj fuel ma s a b ys fs1 hab hmiss hb ha] at hrun
      simp only [pairCloneSeq] at hrun
      split at hrun
      · exact Option.noConfusion hrun
      next s3 heq =>
        injection hrun with hrun
        injection hrun with h1 h2
        subst h1
        refine ⟨h2.symm, ?_⟩
        have hlen := (pushElems_extendsExc hf _ _ _ heq).2.1
        simp at hlen
        omega
  | obj fs2 =>
    cases na with
    | opaq tg => simp [structuredN] at hsa
    | arr xs =>
      rw [idm_obj_arr fuel ma s a b xs fs2 hab hmiss hb ha] at hrun
      simp only [pairCloneMap] at hrun
      split at hrun
      · exact Option.noConfusion hrun
      next s3 heq =>
        injection hrun with hrun
        injection hrun with h1 h2
        subst h1
        refine ⟨h2.symm, ?_⟩
        have hlen := (setEntries_extendsExc
          (fun t k y t' w hh => hf t _ y t' w hh) _ _ _ heq).2.1
        simp at hlen
        omega
    | obj fs1 =>
      rw [idm_obj_obj fuel ma s a b fs1 fs2 hab hmiss hb ha] at hrun
      simp only [mergeMaps] at hrun
      split at hrun
      · exact Option.noConfusion hrun
      next s4 heq =>
        injection hrun with hrun
        injection hrun with h1 h2
        subst h1
        refine ⟨h2.symm, ?_⟩
        have hlen := (setEntries_extendsExc
          (fun t k y t' w hh => hf t _ y t' w hh) _ _ _ heq).2.1
        simp [setNode] at hlen
        omega

/-- C4 (counterexample to the claim as stated): merging `heapAliased` —
target key `p` holds the nested object at input address 1, the source does
not touch `p` — yields a result whose `p` is literally the input address 1:
a nested Map reachable from the result that is not a new allocation but
target's own node. -/
theorem claim4_counterexample :
    pathVal (deepMerge false heapAliased (.ref 0) (.ref 2)) ["p"] =
      some (.ref 1) ∧
    heapAliased.get? 1 = some (.obj [("x", .prim (.num 1))]) ∧
    heapAliased.length = 3 :=
  ⟨by decide, rfl, rfl⟩

/-- C4 (witness): the amended freshness statement on the `heapW1` merge:
the output root is the fresh address 2 and the heap grew. -/
theorem claim4_witness :
    structuredN (Node.obj [("x", Val.prim (.num 1))]) = true ∧
    (Val.ref 2 = Val.ref (initSt heapW1).heap.length ∧
      (initSt heapW1).heap.length < stW1.heap.length) :=
  ⟨rfl, claim4_theorem 4 false (initSt heapW1) 0 1
    (.obj [("x", Val.prim (.num 1))]) (.obj [("y", Val.prim (.num 2))])
    (by decide) rfl (by decide) (by decide) rfl rfl stW1 (.ref 2) (by decide)⟩

/-- C5: the merge never mutates its inputs — every cell of the input heap
is unchanged in the final heap (the engine only appends fresh nodes and
mutates nodes it allocated itself). -/
theorem claim5_theorem (ma : Bool) (H : List Node) (t s : Val) (sF : St) (v : Val)
    (h : deepMerge ma H t s = some (sF, v)) :
    ∀ i, i < H.length → sF.heap.get? i = H.get? i := by
  intro i hi
  unfold deepMerge at h
  split at h
  · injection h with h
    injection h with h1 h2
    subst h1
    exact List.get?_append hi
  · split at h
    · exact (idm_extends _ _ _ _ _ _ _ h).1 i hi
    · split at h
      · exact (idm_extends _ _ _ _ _ _ _ h).1 i hi
      · exact (idm_extends _ _ _ _ _ _ _ h).1 i hi

/-- C5 (witness): cloning the single object of `heapSingle` leaves its
input cell unchanged. -/
theorem claim5_witness :
    deepMerge false heapSingle (.ref 0) (.prim .undefined) =
      some (stSingleClone, .ref 1) ∧
    stSingleClone.heap.get? 0 = heapSingle.get? 0 :=
  ⟨by decide, claim5_theorem false heapSingle (.ref 0) (.prim .undefined)
    stSingleClone (.ref 1) (by decide) 0 (by decide)⟩

/-- C6: for two sequences meeting at a position (at any nesting level, i.e.
in any state): with `mergeArrays = false` the fresh output array holds the
source's elements in order (target's discarded); with `mergeArrays = true`
it holds the target's elements followed by the source's; the output array
is a new allocation distinct from both input arrays. The concrete array
laws of the spec are checked on `heapArrays` (the output array lives at address 5,
fresh: the inputs occupy addresses 0–3, the output root address 4). -/
theorem claim6_theorem :
    (∀ (fuel : Nat) (ma : Bool) (s : St) (a b : Nat) (xs ys : List Val),
      a ≠ b → findPair s.pairs a b = none →
      getNode s a = some (.arr xs) → getNode s b = some (.arr ys) →
      (∀ y ∈ xs, isObject y = false) → (∀ y ∈ ys, isObject y = false) →
      ∃ sF, idm (fuel + 2) ma s (.ref a) (.ref b) =
          some (sF, .ref s.heap.length) ∧
        getNode sF s.heap.length = some (.arr (if ma then xs ++ ys else ys)) ∧
        s.heap.length ≠ a ∧ s.heap.length ≠ b) ∧
    pathNode (deepMerge false heapArrays (.ref 0) (.ref 2)) ["arr"] =
      some (.arr [.prim (.num 3), .prim (.num 4)]) ∧
    pathNode (deepMerge true heapArrays (.ref 0) (.ref 2)) ["arr"] =
      some (.arr [.prim (.num 1), .prim (.num 2), .prim (.num 3),
        .prim (.num 4)]) ∧
    pathVal (deepMerge false heapArrays (.ref 0) (.ref 2)) ["arr"] =
      some (.ref 5) ∧
    pathVal (deepMerge true heapArrays (.ref 0) (.ref 2)) ["arr"] =
      some (.ref 5) ∧
    heapArrays.length = 4 := by
  refine ⟨?_, by decide, by decide, by decide, by decide, rfl⟩
  intro fuel ma s a b xs ys hab hmiss ha hb hxs hys
  have hprim : ∀ y ∈ (if ma then xs ++ ys else ys), ∃ p, y = Val.prim p := by
    intro y hy
    by_cases hma : ma
    · rw [if_pos hma] at hy
      rcases List.mem_append.mp hy with hy | hy
      · exact prim_of_not_object (hxs y hy)
      · exact prim_of_not_object (hys y hy)
    · rw [if_neg hma] at hy
      exact prim_of_not_object (hys y hy)
  obtain ⟨s', hrun, hcur, -, -, -, -⟩ :=
    pushElems_prims fuel ma s.heap.length (if ma then xs ++ ys else ys)
      ⟨s.heap ++ [Node.arr []], s.clones, (a, b, s.heap.length) :: s.pairs⟩ []
      hprim (by simp [getNode, List.get?_concat_length]) (by simp)
  refine ⟨s', ?_, by simpa using hcur,
    ne_of_gt (getNode_lt ha), ne_of_gt (getNode_lt hb)⟩
  show idm (fuel + 1 + 1) ma s (.ref a) (.ref b) = some (s', .ref s.heap.length)
  rw [idm_seq_seq (fuel + 1) ma s a b xs ys hab hmiss hb ha]
  simp only [mergeSeqs, hrun]

/-- C6 (witness): the general sequence law instantiated on the two arrays
of `heapArrays` with `mergeArrays = true`. -/
theorem claim6_witness :
    (1 : Nat) ≠ 3 ∧
    ∃ sF, idm 5 true (initSt heapArrays) (.ref 1) (.ref 3) =
        some (sF, .ref 4) ∧
      getNode sF 4 = some (.arr (if true then
        [Val.prim (.num 1), Val.prim (.num 2)] ++
          [Val.prim (.num 3), Val.prim (.num 4)]
        else [Val.prim (.num 3), Val.prim (.num 4)])) ∧
      (4 : Nat) ≠ 1 ∧ (4 : Nat) ≠ 3 :=
  ⟨by decide, claim6_theorem.1 3 true (initSt heapArrays) 1 3
    [Val.prim (.num 1), Val.prim (.num 2)] [Val.prim (.num 3), Val.prim (.num 4)]
    (by decide) rfl (by decide) (by decide) (by decide) (by decide)⟩

/-- Cloning a plain object whose fields are all scalars yields a fresh
object with exactly the same fields. -/
theorem cloneMapNode_prims (f : Nat) (ma : Bool) (s : St) (b : Nat)
    (fs : List (String × Val)) (hprim : ∀ kv ∈ fs, ∃ p, kv.2 = Val.prim p)
    (hnd : (keysOf fs).Nodup) :
    ∃ s3, cloneMapNode (fun t x y => idm (f + 1) ma t x y) s b fs =
        some (s3, .ref s.heap.length) ∧
      getNode s3 s.heap.length = some (.obj fs) := by
  obtain ⟨s', hrun, hcur, -, -, -, -⟩ :=
    setEntries_prims f ma s.heap.length fs
      ⟨s.heap ++ [Node.obj []], (b, s.heap.length) :: s.clones, s.pairs⟩ []
      hprim (by simp [getNode, List.get?_concat_length]) (by simp)
  rw [foldl_objSet_fresh fs [] (by intro k hk; simp [keysOf]) hnd] at hcur
  refine ⟨s', ?_, by simpa using hcur⟩
  simp only [cloneMapNode, hrun]

/-- C9: root handling — two absent-like roots give a fresh empty object; an
absent-like target (source) means the other side is deep-cloned, shown here
for plain objects with scalar fields; plus the three concrete laws of the
spec. -/
theorem claim9_theorem :
    (∀ (ma : Bool) (H : List Node) (t s : Val),
      isObject t = false → isObject s = false →
      deepMerge ma H t s = some (⟨H ++ [Node.obj []], [], []⟩, .ref H.length)) ∧
    (∀ (ma : Bool) (H : List Node) (pt : SVal) (r : Nat)
      (fs : List (String × Val)),
      H.get? r = some (.obj fs) → (∀ kv ∈ fs, isObject kv.2 = false) →
      (keysOf fs).Nodup →
      ∃ sF, deepMerge ma H (.prim pt) (.ref r) = some (sF, .ref H.length) ∧
        getNode sF H.length = some (.obj fs)) ∧
    (∀ (ma : Bool) (H : List Node) (ps : SVal) (r : Nat)
      (fs : List (String × Val)),
      H.get? r = some (.obj fs) → (∀ kv ∈ fs, isObject kv.2 = false) →
      (keysOf fs).Nodup →
      ∃ sF, deepMerge ma H (.ref r) (.prim ps) = some (sF, .ref H.length) ∧
        getNode sF H.length = some (.obj fs)) ∧
    deepMerge false [] (.prim .null) (.prim .undefined) =
      some (⟨[Node.obj []], [], []⟩, .ref 0) ∧
    pathVal (deepMerge false heapSingle (.prim .null) (.ref 0)) ["a"] =
      some (.prim (.num 1)) ∧
    pathVal (deepMerge false heapSingle (.ref 0) (.prim .undefined)) ["a"] =
      some (.prim (.num 1)) := by
  have hclone : ∀ (ma : Bool) (H : List Node) (r : Nat) (fs : List (String × Val)),
      H.get? r = some (.obj fs) → (∀ kv ∈ fs, isObject kv.2 = false) →
      (keysOf fs).Nodup →
      ∃ sF, idm (fuelFor H) ma (initSt H) (.prim .undefined) (.ref r) =
          some (sF, .ref H.length) ∧
        getNode sF H.length = some (.obj fs) := by
    intro ma H r fs hr hprim hnd
    have hrN : r < H.length :=
      getNode_lt (show getNode (initSt H) r = some (.obj fs) from hr)
    obtain ⟨m, hm⟩ : ∃ m, H.length + H.length * H.length = m + 1 :=
      ⟨H.length + H.length * H.length - 1, by omega⟩
    have hfuel : fuelFor H = m + 1 + 1 := by rw [fuelFor, hm]
    rw [hfuel, idm_clone_obj (m + 1) ma (initSt H) .undefined r fs rfl hr]
    exact cloneMapNode_prims m ma (initSt H) r fs
      (fun kv hkv => prim_of_not_object (hprim kv hkv)) hnd
  refine ⟨?_, ?_, ?_, by decide, by decide, by decide⟩
  · intro ma H t s h1 h2
    simp [deepMerge, h1, h2]
  · intro ma H pt r fs hr hprim hnd
    obtain ⟨sF, hrun, hnode⟩ := hclone ma H r fs hr hprim hnd
    refine ⟨sF, ?_, hnode⟩
    have h1 : isObject (Val.prim pt) = false := rfl
    simp [deepMerge, h1, isObject]
    exact hrun
  · intro ma H ps r fs hr hprim hnd
    obtain ⟨sF, hrun, hnode⟩ := hclone ma H r fs hr hprim hnd
    refine ⟨sF, ?_, hnode⟩
    have h2 : isObject (Val.prim ps) = false := rfl
    simp [deepMerge, h2, isObject]
    exact hrun

/-- C9 (witness): the clone-of-source rule instantiated on `heapSingle`. -/
theorem claim9_witness :
    heapSingle.get? 0 = some (.obj [("a", .prim (.num 1))]) ∧
    ∃ sF, deepMerge false heapSingle (.prim .null) (.ref 0) =
        some (sF, .ref 1) ∧
      getNode sF 1 = some (.obj [("a", .prim (.num 1))]) :=
  ⟨rfl, claim9_theorem.2.1 false heapSingle .null 0 [("a", .prim (.num 1))]
    rfl (by decide) (by decide)⟩

end DeepMerge
